import Mathlib

set_option autoImplicit false

/-!
# Verification of the `udaya` hash-table repository

This file gives a shallow embedding of the repository's associative maps
(`hashtable.py`, `chaining.py`, and the open-addressing variants whose tests
live in `test_hashtables.py`) and proves the frozen claims about them.

Modelling conventions:

* Keys are natural numbers and the hash function is the identity, matching the
  note in `test_hashtables.py` that `hash(x) = x` for the integers the tests
  use; collisions arise through the `% capacity` reduction exactly as in the
  source.  Values are a type parameter `V`.
* Python's `float` maximum load factor is modelled as an exact rational given
  by a numerator/denominator pair of naturals.  The resize trigger
  `load_factor > maximum_load_factor` of `chaining.py` lines 38-40 is computed
  by cross multiplication over `Nat`; `loadTrigger_iff` proves this equal to
  the rational comparison whenever capacity and denominator are positive.
* A raised `KeyError` is modelled as a `none` result of `getitem`/`delitem`;
  the fatal `TableFull` condition of the open-addressing insert is a `none`
  result of the insert itself (the caller observes no state afterwards).
* `_resize` (`hashtable.py` lines 58-66) re-inserts every item through the
  full `__setitem__`, so a resize can recursively trigger further resizes.
  In Python this recursion is unbounded (it diverges for pathological load
  factors); the embedding makes it total with an explicit `fuel` counter that
  bounds the nesting depth of resizes.  A resize with no fuel left returns its
  input unchanged; every theorem below is proved for every fuel value, and
  executions that stay within the fuel budget agree with the Python code.
-/

universe u

namespace HashTables

variable {V : Type u}

/-- The rational load factor `(num_elements + num_tombstones) / capacity`
computed by `HashTable._load_factor` (`hashtable.py` lines 54-56). -/
def loadFactor (numElems numTombs cap : Nat) : Rat :=
  ((numElems + numTombs : Nat) : Rat) / (cap : Rat)

/-- The configured threshold `maximum_load_factor` as a rational. -/
def mlfQ (pnum pden : Nat) : Rat := (pnum : Rat) / (pden : Rat)

/-- Executable form of the comparison `load_factor > maximum_load_factor`
(`chaining.py` line 38), by cross multiplication over `Nat`. -/
def loadTrigger (numElems numTombs cap pnum pden : Nat) : Bool :=
  decide (pnum * cap < pden * (numElems + numTombs))

/-! ## Association-list operations on one chaining bucket

`chaining.py` stores each nonempty bucket as a deque of `(key, value)` pairs;
a bucket that is `BLANK` is modelled as `none`.  The three TODO bodies of
`ChainingHashTable.__getitem__` / `__setitem__` / `__delitem__` scan that
deque; the scans below are modelled from the spec (§4.3) since the source
bodies are stubs. -/

/-- Scan a bucket for the value bound to `k` (first matching entry). -/
def bucketGet (l : List (Nat × V)) (k : Nat) : Option V :=
  match l with
  | [] => none
  | (k', v) :: rest => if k' = k then some v else bucketGet rest k

/-- Overwrite the first entry with key `k` in place, or append `(k, v)`. -/
def bucketSet (l : List (Nat × V)) (k : Nat) (v : V) : List (Nat × V) :=
  match l with
  | [] => [(k, v)]
  | (k', v') :: rest =>
    if k' = k then (k, v) :: rest else (k', v') :: bucketSet rest k v

/-- Remove the first entry with key `k` (no change if absent). -/
def bucketDel (l : List (Nat × V)) (k : Nat) : List (Nat × V) :=
  match l with
  | [] => []
  | (k', v') :: rest => if k' = k then rest else (k', v') :: bucketDel rest k

/-! ## The chaining hash table (`chaining.py`) -/

/-- State of a `ChainingHashTable`: the scalar fields set up by
`HashTable.__init__` (`hashtable.py` lines 41-52) plus the bucket array.
`buckets` entries are `none` for the `BLANK` sentinel and `some l` for a
deque holding the pairs of `l` in order. -/
structure ChainingHashTable (V : Type u) where
  capacity : Nat
  buckets : List (Option (List (Nat × V)))
  num_elements : Nat
  num_tombstones : Nat
  mlf_num : Nat
  mlf_den : Nat
  growth_factor : Nat
  deriving DecidableEq

namespace ChainingHashTable

/-- `HashTable.__init__`: a fresh table of the requested capacity.  No
validation of the arguments is performed, exactly as in the source. -/
def init (cap pnum pden : Nat) : ChainingHashTable V :=
  ⟨cap, List.replicate cap none, 0, 0, pnum, pden, 2⟩

/-- The bucket stored at index `i` (`BLANK` when out of range). -/
def bucketAt (t : ChainingHashTable V) (i : Nat) : Option (List (Nat × V)) :=
  t.buckets.getD i none

/-- The pairs of the bucket at index `i` (empty for `BLANK`). -/
def bucketListAt (t : ChainingHashTable V) (i : Nat) : List (Nat × V) :=
  (t.bucketAt i).getD []

/-- `HashTable._load_factor` for this table. -/
def load_factor (t : ChainingHashTable V) : Rat :=
  loadFactor t.num_elements t.num_tombstones t.capacity

/-- The trigger condition of `chaining.py` line 38. -/
def trigger (t : ChainingHashTable V) : Bool :=
  loadTrigger t.num_elements t.num_tombstones t.capacity t.mlf_num t.mlf_den

/-- `ChainingHashTable.items`: concatenate all nonempty buckets in order. -/
def items (t : ChainingHashTable V) : List (Nat × V) :=
  (t.buckets.map (fun b => b.getD [])).flatten

/-- `ChainingHashTable.__getitem__`: home bucket scan.  `none` models the
raised `KeyError`.  (Scan modelled from the spec; the home-index computation
`hash(search_key) % self._capacity` is `chaining.py` line 22.) -/
def getitem (t : ChainingHashTable V) (k : Nat) : Option V :=
  match t.bucketAt (k % t.capacity) with
  | none => none
  | some l => bucketGet l k

/-- The insertion part of `ChainingHashTable.__setitem__` (materialise the
deque if the home bucket is `BLANK`, then overwrite-or-append), without the
load-factor check that follows it. -/
def setitemNoResize (t : ChainingHashTable V) (k : Nat) (v : V) :
    ChainingHashTable V :=
  let i := k % t.capacity
  let l := (t.bucketAt i).getD []
  { t with
    buckets := t.buckets.set i (some (bucketSet l k v))
    num_elements :=
      if (bucketGet l k).isSome then t.num_elements else t.num_elements + 1 }

/-- `ChainingHashTable.__setitem__` including the trailing
`maybe_resize` check (`chaining.py` lines 38-40) and, through it, the shared
`HashTable._resize` (`hashtable.py` lines 58-66), which re-inserts every item
into a fresh table of capacity `capacity * growth_factor` via the full
`__setitem__`.  `fuel` bounds the resize nesting depth. -/
def setitemFuel : Nat → ChainingHashTable V → Nat → V → ChainingHashTable V
  | 0, t, k, v => t.setitemNoResize k v
  | (g+1), t, k, v =>
    let t' := t.setitemNoResize k v
    if t'.trigger then
      t'.items.foldl (fun acc kv => setitemFuel g acc kv.1 kv.2)
        (init (t'.capacity * t'.growth_factor) t'.mlf_num t'.mlf_den)
    else t'

/-- Fold of full insertions, as performed by the loop of `HashTable._resize`. -/
def insertListFuel (g : Nat) (t0 : ChainingHashTable V) (l : List (Nat × V)) :
    ChainingHashTable V :=
  l.foldl (fun acc kv => setitemFuel g acc kv.1 kv.2) t0

/-- `HashTable._resize` on a chaining table: build a fresh table of capacity
`capacity * growth_factor` with the same load-factor threshold and re-insert
every item through `__setitem__`. -/
def resizeFuel : Nat → ChainingHashTable V → ChainingHashTable V
  | 0, t => t
  | (g+1), t =>
    insertListFuel g (init (t.capacity * t.growth_factor) t.mlf_num t.mlf_den)
      t.items

/-- `ChainingHashTable.__delitem__`: scan the home bucket, remove the matching
entry, reset the bucket to `BLANK` if that empties it, decrement
`num_elements`; `none` models the raised `KeyError`.  (Modelled from the
spec, §4.3.) -/
def delitem (t : ChainingHashTable V) (k : Nat) :
    Option (ChainingHashTable V) :=
  let i := k % t.capacity
  match t.bucketAt i with
  | none => none
  | some l =>
    if (bucketGet l k).isSome then
      let l' := bucketDel l k
      some { t with
             buckets := t.buckets.set i (if l'.isEmpty then none else some l')
             num_elements := t.num_elements - 1 }
    else none

end ChainingHashTable

/-! ## The open-addressing hash tables

`open_addressing.py` (importing `LinearProbingHashTable` and
`QuadraticProbingHashTable`) is not part of the sources; everything below the
probe-index formulas is modelled from the spec (§4.1, §4.4).  The probe index
formulas themselves reproduce the expected sequences asserted by
`test_generate_indices` in `test_hashtables.py`. -/

/-- A slot of the open-addressing backing array: the `BLANK` sentinel, the
`TOMBSTONE` sentinel (`hashtable.py` lines 25-29), or a live `(key, value)`
pair. -/
inductive Slot (V : Type u) where
  | blank
  | tomb
  | occ (key : Nat) (value : V)
  deriving DecidableEq

namespace Slot

/-- The key held by a slot, when it is occupied. -/
def keyOf : Slot V → Option Nat
  | .occ k _ => some k
  | _ => none

/-- Whether the slot is the `BLANK` sentinel. -/
def isBlank : Slot V → Bool
  | .blank => true
  | _ => false

/-- Whether the slot is the `TOMBSTONE` sentinel. -/
def isTomb : Slot V → Bool
  | .tomb => true
  | _ => false

/-- The `(key, value)` pair held by a slot, when it is occupied. -/
def entry : Slot V → Option (Nat × V)
  | .occ k v => some (k, v)
  | _ => none

end Slot

/-- One if the optional value is present, zero otherwise. -/
def optCount {α : Type u} : Option α → Nat
  | none => 0
  | some _ => 1

/-- The two probe-sequence generators (spec §4.1): linear probing steps by 1,
quadratic probing by triangular numbers.  `home` is the key's home index. -/
inductive ProbeKind where
  | linear
  | quadratic
  deriving DecidableEq

/-- The `i`-th candidate index of the probe sequence starting at `home` in a
table of capacity `cap`. -/
def probeIdx : ProbeKind → Nat → Nat → Nat → Nat
  | .linear, cap, home, i => (home + i) % cap
  | .quadratic, cap, home, i => (home + i * (i + 1) / 2) % cap

/-- State of an open-addressing table (either probing variant). -/
structure OpenHashTable (V : Type u) where
  capacity : Nat
  buckets : List (Slot V)
  num_elements : Nat
  num_tombstones : Nat
  mlf_num : Nat
  mlf_den : Nat
  growth_factor : Nat
  deriving DecidableEq

namespace OpenHashTable

/-- `HashTable.__init__` for an open-addressing table. -/
def init (cap pnum pden : Nat) : OpenHashTable V :=
  ⟨cap, List.replicate cap .blank, 0, 0, pnum, pden, 2⟩

/-- The slot at array index `p` (`BLANK` when out of range). -/
def slotAt (t : OpenHashTable V) (p : Nat) : Slot V :=
  t.buckets.getD p .blank

/-- The sequence of slots visited when probing for key `k`. -/
def slotsOf (pk : ProbeKind) (t : OpenHashTable V) (k : Nat) : Nat → Slot V :=
  fun i => t.slotAt (probeIdx pk t.capacity (k % t.capacity) i)

/-- `HashTable._load_factor` for this table. -/
def load_factor (t : OpenHashTable V) : Rat :=
  loadFactor t.num_elements t.num_tombstones t.capacity

/-- The resize trigger condition for this table. -/
def trigger (t : OpenHashTable V) : Bool :=
  loadTrigger t.num_elements t.num_tombstones t.capacity t.mlf_num t.mlf_den

/-- Enumeration of the live `(key, value)` pairs, in slot order. -/
def items (t : OpenHashTable V) : List (Nat × V) :=
  t.buckets.filterMap Slot.entry

end OpenHashTable

/-- Lookup/delete scan (spec §4.4): walk the probe sequence from step `s` for
at most `n` more steps; skip `TOMBSTONE`s; stop with the step index and value
at an occupied slot holding the key; stop with `none` at a `BLANK` slot or
when the budget is exhausted. -/
def pathFind (slots : Nat → Slot V) (k : Nat) : Nat → Nat → Option (Nat × V)
  | _, 0 => none
  | s, n+1 =>
    match slots s with
    | .blank => none
    | .tomb => pathFind slots k (s+1) n
    | .occ k' v => if k' = k then some (s, v) else pathFind slots k (s+1) n

/-- Result of the insert scan: overwrite an existing entry at probe step `i`,
place a fresh entry at probe step `i` (into a remembered first tombstone when
`intoTomb`), or give up (`TableFull`). -/
inductive InsLoc where
  | update (i : Nat)
  | place (i : Nat) (intoTomb : Bool)
  | full
  deriving DecidableEq

/-- Insert scan (spec §4.4): walk the probe sequence remembering the first
`TOMBSTONE` step `ft`; overwrite on an occupied slot with the key; on a
`BLANK` slot place into the remembered tombstone if any, else into the blank;
`TableFull` after exhausting the budget. -/
def pathScanIns (slots : Nat → Slot V) (k : Nat) :
    Nat → Option Nat → Nat → InsLoc
  | _, _, 0 => .full
  | s, ft, n+1 =>
    match slots s with
    | .blank => .place (ft.getD s) ft.isSome
    | .tomb =>
      pathScanIns slots k (s+1) (some (ft.getD s)) n
    | .occ k' _ =>
      if k' = k then .update s else pathScanIns slots k (s+1) ft n

namespace OpenHashTable

/-- Lookup `__getitem__` for an open-addressing table (spec §4.4): at most
`capacity` probes; `none` models the raised `KeyError`. -/
def getitem (pk : ProbeKind) (t : OpenHashTable V) (k : Nat) : Option V :=
  (pathFind (t.slotsOf pk k) k 0 t.capacity).map Prod.snd

/-- The insertion part of `__setitem__` (spec §4.4), without the trailing
load-factor check.  `none` models the fatal `TableFull` condition. -/
def setitemNoResize (pk : ProbeKind) (t : OpenHashTable V) (k : Nat) (v : V) :
    Option (OpenHashTable V) :=
  match pathScanIns (t.slotsOf pk k) k 0 none t.capacity with
  | .update i =>
    some { t with
           buckets := t.buckets.set (probeIdx pk t.capacity (k % t.capacity) i) (.occ k v) }
  | .place i true =>
    some { t with
           buckets := t.buckets.set (probeIdx pk t.capacity (k % t.capacity) i) (.occ k v)
           num_elements := t.num_elements + 1
           num_tombstones := t.num_tombstones - 1 }
  | .place i false =>
    some { t with
           buckets := t.buckets.set (probeIdx pk t.capacity (k % t.capacity) i) (.occ k v)
           num_elements := t.num_elements + 1 }
  | .full => none

/-- Full `__setitem__` including the trailing load-factor check and the
shared `HashTable._resize`, with `fuel` bounding the resize nesting depth. -/
def setitemFuel (pk : ProbeKind) :
    Nat → OpenHashTable V → Nat → V → Option (OpenHashTable V)
  | 0, t, k, v => t.setitemNoResize pk k v
  | (g+1), t, k, v =>
    match t.setitemNoResize pk k v with
    | none => none
    | some t' =>
      if t'.trigger then
        t'.items.foldl
          (fun acc kv =>
            match acc with
            | none => none
            | some u => setitemFuel pk g u kv.1 kv.2)
          (some (init (t'.capacity * t'.growth_factor) t'.mlf_num t'.mlf_den))
      else some t'

/-- Fold of full insertions, as performed by the loop of `HashTable._resize`. -/
def insertListFuel (pk : ProbeKind) (g : Nat) (acc0 : Option (OpenHashTable V))
    (l : List (Nat × V)) : Option (OpenHashTable V) :=
  l.foldl
    (fun acc kv =>
      match acc with
      | none => none
      | some u => setitemFuel pk g u kv.1 kv.2)
    acc0

/-- `HashTable._resize` on an open-addressing table. -/
def resizeFuel (pk : ProbeKind) :
    Nat → OpenHashTable V → Option (OpenHashTable V)
  | 0, t => some t
  | (g+1), t =>
    insertListFuel pk g
      (some (init (t.capacity * t.growth_factor) t.mlf_num t.mlf_den)) t.items

/-- Delete `__delitem__` (spec §4.4): probe for the key, replace its slot by a
`TOMBSTONE`, adjust the counters; `none` models the raised `KeyError`. -/
def delitem (pk : ProbeKind) (t : OpenHashTable V) (k : Nat) :
    Option (OpenHashTable V) :=
  match pathFind (t.slotsOf pk k) k 0 t.capacity with
  | none => none
  | some (i, _) =>
    some { t with
           buckets := t.buckets.set (probeIdx pk t.capacity (k % t.capacity) i) .tomb
           num_elements := t.num_elements - 1
           num_tombstones := t.num_tombstones + 1 }

end OpenHashTable

/-! ## The unified map interface (spec §6) -/

/-- Which of the three interchangeable variants a table uses. -/
inductive Variant where
  | chaining
  | linearProbing
  | quadraticProbing
  deriving DecidableEq

/-- A table of any of the three variants. -/
inductive TableState (V : Type u) where
  | chain (t : ChainingHashTable V)
  | oa (pk : ProbeKind) (t : OpenHashTable V)
  deriving DecidableEq

namespace TableState

/-- Construct a fresh map of the given variant (spec §6 `Construct`). -/
def mkT (var : Variant) (cap pnum pden : Nat) : TableState V :=
  match var with
  | .chaining => .chain (ChainingHashTable.init cap pnum pden)
  | .linearProbing => .oa .linear (OpenHashTable.init cap pnum pden)
  | .quadraticProbing => .oa .quadratic (OpenHashTable.init cap pnum pden)

/-- `get(key)`; `none` is the `KeyNotFound` failure. -/
def getT : TableState V → Nat → Option V
  | .chain t, k => t.getitem k
  | .oa pk t, k => t.getitem pk k

/-- `set(key, value)`; `none` is the fatal `TableFull` failure. -/
def setT (fuel : Nat) : TableState V → Nat → V → Option (TableState V)
  | .chain t, k, v => some (.chain (ChainingHashTable.setitemFuel fuel t k v))
  | .oa pk t, k, v => (OpenHashTable.setitemFuel pk fuel t k v).map (.oa pk)

/-- `delete(key)`; `none` is the `KeyNotFound` failure. -/
def delT : TableState V → Nat → Option (TableState V)
  | .chain t, k => (t.delitem k).map .chain
  | .oa pk t, k => (t.delitem pk k).map (.oa pk)

/-- The insertion phase of `set` without the trailing load-factor check. -/
def insertPhaseT : TableState V → Nat → V → Option (TableState V)
  | .chain t, k, v => some (.chain (t.setitemNoResize k v))
  | .oa pk t, k, v => (t.setitemNoResize pk k v).map (.oa pk)

/-- `HashTable._resize` of the underlying table. -/
def resizeT (fuel : Nat) : TableState V → Option (TableState V)
  | .chain t => some (.chain (ChainingHashTable.resizeFuel fuel t))
  | .oa pk t => (OpenHashTable.resizeFuel pk fuel t).map (.oa pk)

/-- `len()`, i.e. `HashTable.__len__` (`hashtable.py` lines 78-79). -/
def lenT : TableState V → Nat
  | .chain t => t.num_elements
  | .oa _ t => t.num_elements

/-- The capacity of the backing array. -/
def capT : TableState V → Nat
  | .chain t => t.capacity
  | .oa _ t => t.capacity

/-- The number of tombstones recorded by the table. -/
def tombsT : TableState V → Nat
  | .chain t => t.num_tombstones
  | .oa _ t => t.num_tombstones

/-- The load-factor numerator/denominator threshold pair. -/
def mlfT : TableState V → Nat × Nat
  | .chain t => (t.mlf_num, t.mlf_den)
  | .oa _ t => (t.mlf_num, t.mlf_den)

/-- The growth factor. -/
def growthT : TableState V → Nat
  | .chain t => t.growth_factor
  | .oa _ t => t.growth_factor

/-- `HashTable._load_factor` of the underlying table. -/
def loadT : TableState V → Rat
  | .chain t => t.load_factor
  | .oa _ t => t.load_factor

/-- The executable resize-trigger condition of the underlying table. -/
def triggerT : TableState V → Bool
  | .chain t => t.trigger
  | .oa _ t => t.trigger

/-- All `(key, value)` items of the table, via the variant's enumeration. -/
def itemsT : TableState V → List (Nat × V)
  | .chain t => t.items
  | .oa _ t => t.items

/-- Whether the key is currently stored in the table's buckets. -/
def memT (s : TableState V) (k : Nat) : Bool :=
  (s.itemsT.map Prod.fst).contains k

/-- How many stored entries carry the key `k`. -/
def keyCountT (s : TableState V) (k : Nat) : Nat :=
  List.count k (s.itemsT.map Prod.fst)

/-- Whether the table is the chaining variant. -/
def isChaining : TableState V → Bool
  | .chain _ => true
  | .oa _ _ => false

end TableState

/-! ## Client operations (spec §8 "sequences of insert/lookup/delete") -/

/-- One client operation against the map interface. -/
inductive Op (V : Type u) where
  | set (k : Nat) (v : V)
  | get (k : Nat)
  | del (k : Nat)

/-- Whether the operation is a `set(k, _)` or `delete(k)` for this key. -/
def Op.touches (k : Nat) : Op V → Bool
  | .set k' _ => k' = k
  | .del k' => k' = k
  | .get _ => false

/-- Run one operation.  A failing `get`/`delete` raises `KeyError`, which the
caller can observe and recover from, leaving the table unchanged; a `TableFull`
insert is fatal (`none`). -/
def applyOp (fuel : Nat) (s : TableState V) : Op V → Option (TableState V)
  | .set k v => s.setT fuel k v
  | .get _ => some s
  | .del k => some ((s.delT k).getD s)

/-- Run a list of operations in order. -/
def applyOps (fuel : Nat) (s : TableState V) : List (Op V) → Option (TableState V)
  | [] => some s
  | op :: rest =>
    match applyOp fuel s op with
    | none => none
    | some s' => applyOps fuel s' rest

/-- One step of the bookkeeping for the set of currently-live keys. -/
def liveStep (acc : Finset Nat) : Op V → Finset Nat
  | .set k _ => insert k acc
  | .del k => acc.erase k
  | .get _ => acc

/-- The set of keys that have been inserted and not subsequently deleted by a
prefix of operations. -/
def liveKeys (ops : List (Op V)) : Finset Nat :=
  ops.foldl liveStep ∅


/-- The first of two optional results that is available. -/
def firstSome {V : Type u} (a b : Option V) : Option V :=
  match a with
  | some v => some v
  | none => b

/-- A probe-path slot that a scan for key `k` walks past: neither `BLANK` nor
occupied by `k` itself. -/
def passable {V : Type u} (k : Nat) (s : Slot V) : Prop :=
  s.isBlank = false ∧ s.keyOf ≠ some k

instance {V : Type u} (k : Nat) (s : Slot V) : Decidable (passable k s) := by
  unfold passable; infer_instance

/-- A slot the insert scan walked strictly past: occupied by another key. -/
def OccOther {V : Type u} (slots : Nat → Slot V) (k j : Nat) : Prop :=
  ∃ k' v', slots j = .occ k' v' ∧ k' ≠ k

/-- Invariant of the insert scan's remembered-first-tombstone accumulator. -/
def FtOk {V : Type u} (slots : Nat → Slot V) (k s : Nat) : Option Nat → Prop
  | some f => f < s ∧ slots f = .tomb ∧ ∀ j, j < f → OccOther slots k j
  | none => ∀ j, j < s → OccOther slots k j

/-- What each outcome of the insert scan guarantees about the probe path. -/
def InsLocSpec {V : Type u} (slots : Nat → Slot V) (k s n : Nat) : InsLoc → Prop
  | .update i => s ≤ i ∧ i < s + n ∧ (∃ v₀, slots i = .occ k v₀) ∧
      ∀ j, j < i → passable k (slots j)
  | .place p true => p < s + n ∧ slots p = .tomb ∧
      (∀ j, j < p → OccOther slots k j) ∧
      ∃ b, b < s + n ∧ slots b = .blank ∧ ∀ j, j < b → passable k (slots j)
  | .place p false => s ≤ p ∧ p < s + n ∧ slots p = .blank ∧
      ∀ j, j < p → OccOther slots k j
  | .full => True

/-! ## Invariants of reachable tables (spec §3) -/

/-- The well-formedness invariant of a chaining table: positive capacity, a
backing array of exactly `capacity` buckets, no tombstones, growth factor 2,
every entry stored in its home bucket, no duplicate keys within a bucket, no
allocated-but-empty bucket, and an accurate element count. -/
@[mk_iff]
structure ChainInv (t : ChainingHashTable V) : Prop where
  cap_pos : 0 < t.capacity
  len_eq : t.buckets.length = t.capacity
  tombs_eq : t.num_tombstones = 0
  growth_eq : t.growth_factor = 2
  home_ok : ∀ i, i < t.capacity → ∀ kv ∈ t.bucketListAt i, kv.1 % t.capacity = i
  nodup_keys : ∀ i, i < t.capacity → (List.map Prod.fst (t.bucketListAt i)).Nodup
  no_empty : ∀ i, i < t.capacity → t.bucketAt i ≠ some []
  count_eq : t.num_elements = t.items.length

instance [DecidableEq V] (t : ChainingHashTable V) : Decidable (ChainInv t) :=
  decidable_of_iff _ (chainInv_iff t).symm

/-- The probe-path condition at array index `p` (spec §3): if `p` holds a live
key `k`, then `p` occurs on `k`'s probe sequence within `capacity` steps and
every earlier step of that sequence is passable for `k` (never `BLANK`, never
another copy of `k`). -/
def probeOkAt (pk : ProbeKind) (t : OpenHashTable V) (p : Nat) : Prop :=
  ∀ k, (t.slotAt p).keyOf = some k →
    ∃ i, i < t.capacity ∧ probeIdx pk t.capacity (k % t.capacity) i = p ∧
      ∀ j, j < i → passable k (t.slotsOf pk k j)

instance (pk : ProbeKind) (t : OpenHashTable V) (p : Nat) :
    Decidable (probeOkAt pk t p) :=
  match h : (t.slotAt p).keyOf with
  | none =>
    .isTrue (fun k hk => absurd (h ▸ hk) (by simp))
  | some k0 =>
    decidable_of_iff
      (∃ i, i < t.capacity ∧ probeIdx pk t.capacity (k0 % t.capacity) i = p ∧
        ∀ j, j < i → passable k0 (t.slotsOf pk k0 j))
      (by
        constructor
        · intro hex k hk
          rw [h] at hk
          cases hk
          exact hex
        · intro hall
          exact hall k0 h)

/-- The well-formedness invariant of an open-addressing table: positive
capacity, a backing array of exactly `capacity` slots, growth factor 2,
accurate element and tombstone counters, and the probe-path condition at every
index. -/
@[mk_iff]
structure OpenInv (pk : ProbeKind) (t : OpenHashTable V) : Prop where
  cap_pos : 0 < t.capacity
  len_eq : t.buckets.length = t.capacity
  growth_eq : t.growth_factor = 2
  n_eq : t.num_elements = t.items.length
  t_eq : t.num_tombstones = (t.buckets.filter Slot.isTomb).length
  probe_ok : ∀ p, p < t.capacity → probeOkAt pk t p

instance (pk : ProbeKind) (t : OpenHashTable V) : Decidable (OpenInv pk t) :=
  decidable_of_iff _ (openInv_iff pk t).symm

/-- The invariant of a table of any variant. -/
def InvT : TableState V → Prop
  | .chain t => ChainInv t
  | .oa pk t => OpenInv pk t

instance [DecidableEq V] (s : TableState V) : Decidable (InvT s) :=
  match s with
  | .chain t => (inferInstance : Decidable (ChainInv t))
  | .oa pk t => (inferInstance : Decidable (OpenInv pk t))


/-- Observable effect of one full chaining `__setitem__` call that turned
`t` into `t'`: the invariant is maintained, the key reads back, no other key
changes, the element count grows only for a fresh key, and the configured
threshold, growth factor and (zero) tombstone count are kept. -/
structure ChainSetSpec (t t' : ChainingHashTable V) (k : Nat) (v : V) : Prop where
  inv : ChainInv t'
  get_self : t'.getitem k = some v
  get_other : ∀ k', k' ≠ k → t'.getitem k' = t.getitem k'
  num : t'.num_elements =
    if (t.getitem k).isSome then t.num_elements else t.num_elements + 1
  mnum : t'.mlf_num = t.mlf_num
  mden : t'.mlf_den = t.mlf_den
  grow : t'.growth_factor = t.growth_factor
  tombs : t'.num_tombstones = 0

/-- Observable effect of a chaining `_resize` that turned `t` into `t'`:
contents, count and configuration are preserved. -/
structure ChainResizeSpec (t t' : ChainingHashTable V) : Prop where
  inv : ChainInv t'
  get_all : ∀ k, t'.getitem k = t.getitem k
  num : t'.num_elements = t.num_elements
  mnum : t'.mlf_num = t.mlf_num
  mden : t'.mlf_den = t.mlf_den
  grow : t'.growth_factor = t.growth_factor
  tombs : t'.num_tombstones = 0

/-- Observable effect of a successful chaining `__delitem__`. -/
structure ChainDelSpec (t t' : ChainingHashTable V) (k : Nat) : Prop where
  inv : ChainInv t'
  get_self : t'.getitem k = none
  get_other : ∀ k', k' ≠ k → t'.getitem k' = t.getitem k'
  num : t'.num_elements + 1 = t.num_elements
  cap : t'.capacity = t.capacity
  mnum : t'.mlf_num = t.mlf_num
  mden : t'.mlf_den = t.mlf_den
  grow : t'.growth_factor = t.growth_factor
  tombs : t'.num_tombstones = 0


/-- Observable effect of one full open-addressing `__setitem__` call that
turned `t` into `t'` (when it did not fail with `TableFull`). -/
structure OpenSetSpec (pk : ProbeKind) (t t' : OpenHashTable V) (k : Nat)
    (v : V) : Prop where
  inv : OpenInv pk t'
  get_self : t'.getitem pk k = some v
  get_other : ∀ k', k' ≠ k → t'.getitem pk k' = t.getitem pk k'
  num : t'.num_elements =
    if (t.getitem pk k).isSome then t.num_elements else t.num_elements + 1
  tombs_le : t'.num_tombstones ≤ t.num_tombstones
  mnum : t'.mlf_num = t.mlf_num
  mden : t'.mlf_den = t.mlf_den
  grow : t'.growth_factor = t.growth_factor

/-- Observable effect of an open-addressing `_resize` that completed. -/
structure OpenResizeSpec (pk : ProbeKind) (t t' : OpenHashTable V) : Prop where
  inv : OpenInv pk t'
  get_all : ∀ k, t'.getitem pk k = t.getitem pk k
  num : t'.num_elements = t.num_elements
  tombs_le : t'.num_tombstones ≤ t.num_tombstones
  mnum : t'.mlf_num = t.mlf_num
  mden : t'.mlf_den = t.mlf_den
  grow : t'.growth_factor = t.growth_factor

/-- Observable effect of a successful open-addressing `__delitem__`. -/
structure OpenDelSpec (pk : ProbeKind) (t t' : OpenHashTable V) (k : Nat) :
    Prop where
  inv : OpenInv pk t'
  get_self : t'.getitem pk k = none
  get_other : ∀ k', k' ≠ k → t'.getitem pk k' = t.getitem pk k'
  num : t'.num_elements + 1 = t.num_elements
  cap : t'.capacity = t.capacity
  tombs : t'.num_tombstones = t.num_tombstones + 1
  mnum : t'.mlf_num = t.mlf_num
  mden : t'.mlf_den = t.mlf_den
  grow : t'.growth_factor = t.growth_factor


/-- Observable effect of `set(k, v)` on a table of any variant. -/
structure SetSpecT (s s' : TableState V) (k : Nat) (v : V) : Prop where
  inv : InvT s'
  get_self : s'.getT k = some v
  get_other : ∀ k', k' ≠ k → s'.getT k' = s.getT k'
  len : s'.lenT = if (s.getT k).isSome then s.lenT else s.lenT + 1

/-- Observable effect of a successful `delete(k)` on a table of any variant. -/
structure DelSpecT (s s' : TableState V) (k : Nat) : Prop where
  inv : InvT s'
  get_self : s'.getT k = none
  get_other : ∀ k', k' ≠ k → s'.getT k' = s.getT k'
  len : s'.lenT + 1 = s.lenT
  cap : s'.capT = s.capT

/-! # Theorems -/

/-! ## Bucket-scan lemmas (chaining) -/

variable {V : Type u}

theorem bucketGet_bucketSet_self (l : List (Nat × V)) (k : Nat) (v : V) :
    bucketGet (bucketSet l k v) k = some v := by
  induction l with
  | nil => simp [bucketGet, bucketSet]
  | cons kv rest ih =>
    obtain ⟨k', v'⟩ := kv
    by_cases h : k' = k <;> simp [bucketGet, bucketSet, h, ih]

theorem bucketGet_bucketSet_ne (l : List (Nat × V)) {k k' : Nat} (v : V)
    (h : k' ≠ k) : bucketGet (bucketSet l k v) k' = bucketGet l k' := by
  induction l with
  | nil => simp [bucketGet, bucketSet, Ne.symm h]
  | cons kv rest ih =>
    obtain ⟨k0, v0⟩ := kv
    by_cases h0 : k0 = k
    · subst h0
      simp [bucketGet, bucketSet, Ne.symm h]
    · by_cases h1 : k0 = k' <;> simp [bucketGet, bucketSet, h0, h1, h, ih]

theorem mem_bucketSet {l : List (Nat × V)} {k : Nat} {v : V} {kv : Nat × V}
    (h : kv ∈ bucketSet l k v) : kv ∈ l ∨ kv = (k, v) := by
  induction l with
  | nil => simpa [bucketSet] using h
  | cons kv0 rest ih =>
    obtain ⟨k0, v0⟩ := kv0
    by_cases h0 : k0 = k
    · rcases (by simpa [bucketSet, h0] using h) with h1 | h1
      · exact .inr h1
      · exact .inl (List.mem_cons_of_mem _ h1)
    · rcases (by simpa [bucketSet, h0] using h) with h1 | h1
      · exact .inl (by simp [h1])
      · rcases ih h1 with h2 | h2
        · exact .inl (List.mem_cons_of_mem _ h2)
        · exact .inr h2

theorem keys_bucketSet_of_isSome {l : List (Nat × V)} {k : Nat} (v : V)
    (h : (bucketGet l k).isSome = true) :
    List.map Prod.fst (bucketSet l k v) = List.map Prod.fst l := by
  induction l with
  | nil => simp [bucketGet] at h
  | cons kv rest ih =>
    obtain ⟨k0, v0⟩ := kv
    by_cases h0 : k0 = k
    · simp [bucketSet, h0]
    · simp only [bucketGet, h0, if_false, if_neg h0] at h
      simp [bucketSet, h0, ih h]

theorem keys_bucketSet_of_none {l : List (Nat × V)} {k : Nat} (v : V)
    (h : bucketGet l k = none) :
    List.map Prod.fst (bucketSet l k v) = List.map Prod.fst l ++ [k] := by
  induction l with
  | nil => simp [bucketSet]
  | cons kv rest ih =>
    obtain ⟨k0, v0⟩ := kv
    by_cases h0 : k0 = k
    · simp [bucketGet, h0] at h
    · simp only [bucketGet, h0, if_neg h0] at h
      simp [bucketSet, h0, ih h]

theorem bucketGet_eq_none_iff {l : List (Nat × V)} {k : Nat} :
    bucketGet l k = none ↔ k ∉ List.map Prod.fst l := by
  induction l with
  | nil => simp [bucketGet]
  | cons kv rest ih =>
    obtain ⟨k0, v0⟩ := kv
    by_cases h0 : k0 = k
    · subst h0
      simp [bucketGet]
    · simp [bucketGet, h0, ih, show k ≠ k0 from fun h => h0 h.symm]

theorem bucketGet_isSome_iff {l : List (Nat × V)} {k : Nat} :
    (bucketGet l k).isSome = true ↔ k ∈ List.map Prod.fst l := by
  rcases hg : bucketGet l k with _ | v
  · simpa using (@bucketGet_eq_none_iff _ l k).mp hg
  · simp only [Option.isSome_some, true_iff]
    by_contra hk
    rw [← bucketGet_eq_none_iff] at hk
    simp [hg] at hk

theorem mem_of_bucketGet_eq_some {l : List (Nat × V)} {k : Nat} {v : V}
    (h : bucketGet l k = some v) : (k, v) ∈ l := by
  induction l with
  | nil => simp [bucketGet] at h
  | cons kv rest ih =>
    obtain ⟨k0, v0⟩ := kv
    by_cases h0 : k0 = k
    · subst h0
      simp [bucketGet] at h
      simp [h]
    · simp only [bucketGet, h0, if_neg h0] at h
      exact List.mem_cons_of_mem _ (ih h)

theorem bucketGet_of_mem_nodup {l : List (Nat × V)} {k : Nat} {v : V}
    (hn : (List.map Prod.fst l).Nodup) (h : (k, v) ∈ l) :
    bucketGet l k = some v := by
  induction l with
  | nil => simp at h
  | cons kv rest ih =>
    obtain ⟨k0, v0⟩ := kv
    simp only [List.map_cons, List.nodup_cons] at hn
    rcases List.mem_cons.mp h with h1 | h1
    · rw [Prod.mk.injEq] at h1
      obtain ⟨rfl, rfl⟩ := h1
      simp [bucketGet]
    · by_cases h0 : k0 = k
      · exact absurd (h0 ▸ (List.mem_map_of_mem Prod.fst h1 : k ∈ _)) (h0 ▸ hn.1)
      · simp only [bucketGet, h0, if_neg h0]
        exact ih hn.2 h1

theorem bucketSet_ne_nil (l : List (Nat × V)) (k : Nat) (v : V) :
    bucketSet l k v ≠ [] := by
  cases l with
  | nil => simp [bucketSet]
  | cons kv rest =>
    obtain ⟨k0, v0⟩ := kv
    by_cases h0 : k0 = k <;> simp [bucketSet, h0]

theorem length_bucketSet (l : List (Nat × V)) (k : Nat) (v : V) :
    (bucketSet l k v).length =
      if (bucketGet l k).isSome then l.length else l.length + 1 := by
  induction l with
  | nil => simp [bucketGet, bucketSet]
  | cons kv rest ih =>
    obtain ⟨k0, v0⟩ := kv
    by_cases h0 : k0 = k
    · simp [bucketGet, bucketSet, h0]
    · have hg : bucketGet ((k0, v0) :: rest) k = bucketGet rest k := by
        simp [bucketGet, h0]
      rw [hg]
      simp only [bucketSet, if_neg h0, List.length_cons, ih]
      by_cases h1 : (bucketGet rest k).isSome = true <;> simp [h1]

theorem bucketDel_sublist (l : List (Nat × V)) (k : Nat) :
    (bucketDel l k).Sublist l := by
  induction l with
  | nil => simp [bucketDel]
  | cons kv rest ih =>
    obtain ⟨k0, v0⟩ := kv
    by_cases h0 : k0 = k
    · simpa [bucketDel, h0] using List.sublist_cons_self _ _
    · simpa [bucketDel, h0] using ih.cons₂ (k0, v0)

theorem bucketGet_bucketDel_self {l : List (Nat × V)} {k : Nat}
    (hn : (List.map Prod.fst l).Nodup) :
    bucketGet (bucketDel l k) k = none := by
  induction l with
  | nil => simp [bucketDel, bucketGet]
  | cons kv rest ih =>
    obtain ⟨k0, v0⟩ := kv
    simp only [List.map_cons, List.nodup_cons] at hn
    by_cases h0 : k0 = k
    · subst h0
      rw [bucketGet_eq_none_iff, bucketDel, if_pos rfl]
      exact hn.1
    · simp only [bucketDel, h0, if_neg h0, bucketGet]
      exact ih hn.2

theorem bucketGet_bucketDel_ne (l : List (Nat × V)) {k k' : Nat} (h : k' ≠ k) :
    bucketGet (bucketDel l k) k' = bucketGet l k' := by
  induction l with
  | nil => simp [bucketDel]
  | cons kv rest ih =>
    obtain ⟨k0, v0⟩ := kv
    by_cases h0 : k0 = k
    · subst h0
      simp [bucketDel, bucketGet, Ne.symm h]
    · by_cases h1 : k0 = k' <;> simp [bucketDel, bucketGet, h0, h1, h, ih]

theorem length_bucketDel {l : List (Nat × V)} {k : Nat}
    (h : (bucketGet l k).isSome = true) :
    (bucketDel l k).length + 1 = l.length := by
  induction l with
  | nil => simp [bucketGet] at h
  | cons kv rest ih =>
    obtain ⟨k0, v0⟩ := kv
    by_cases h0 : k0 = k
    · simp [bucketDel, h0]
    · simp only [bucketGet, h0, if_neg h0] at h
      simp [bucketDel, h0, ih h]

theorem loadTrigger_iff (numElems numTombs cap pnum pden : Nat)
    (hcap : 0 < cap) (hden : 0 < pden) :
    loadTrigger numElems numTombs cap pnum pden = true ↔
      loadFactor numElems numTombs cap > mlfQ pnum pden := by
  rw [loadFactor, mlfQ, gt_iff_lt,
    div_lt_div_iff₀ (by positivity) (by positivity)]
  rw [show ((pnum : Rat) * (cap : Rat)) = ((pnum * cap : Nat) : Rat) by push_cast; ring,
    show (((numElems + numTombs : Nat) : Rat) * (pden : Rat))
        = ((pden * (numElems + numTombs) : Nat) : Rat) by push_cast; ring]
  rw [loadTrigger]
  simp only [decide_eq_true_eq]
  exact ⟨fun h => by exact_mod_cast h, fun h => by exact_mod_cast h⟩

theorem ChainingHashTable.setitemFuel_eq (fuel : Nat) (t : ChainingHashTable V) (k : Nat) (v : V) :
    ChainingHashTable.setitemFuel fuel t k v =
      (let t' := t.setitemNoResize k v
       if t'.trigger then ChainingHashTable.resizeFuel fuel t' else t') := by
  cases fuel with
  | zero => exact (ite_self _).symm
  | succ g => rfl

theorem OpenHashTable.setitemFuel_eq_oa (pk : ProbeKind) (fuel : Nat) (t : OpenHashTable V)
    (k : Nat) (v : V) :
    OpenHashTable.setitemFuel pk fuel t k v =
      (t.setitemNoResize pk k v).bind
        (fun t' => if t'.trigger then OpenHashTable.resizeFuel pk fuel t' else some t') := by
  cases fuel with
  | zero =>
    simp only [OpenHashTable.setitemFuel]
    cases h : t.setitemNoResize pk k v <;> simp [OpenHashTable.resizeFuel]
  | succ g =>
    simp only [OpenHashTable.setitemFuel]
    cases h : t.setitemNoResize pk k v <;> simp [OpenHashTable.resizeFuel, OpenHashTable.insertListFuel]

/-! ## Generic list helpers -/

theorem listGetD_set_self {α : Type u} (l : List α) {i : Nat}
    (h : i < l.length) (b d : α) : (l.set i b).getD i d = b := by
  rw [List.getD_eq_getElem?_getD, List.getElem?_set_self h]
  rfl

theorem listGetD_set_ne {α : Type u} (l : List α) {i j : Nat} (h : i ≠ j)
    (b d : α) : (l.set i b).getD j d = l.getD j d := by
  rw [List.getD_eq_getElem?_getD, List.getElem?_set_ne h,
    ← List.getD_eq_getElem?_getD]

theorem listGetD_replicate {α : Type u} (n i : Nat) (a : α) :
    (List.replicate n a).getD i a = a := by
  induction n generalizing i with
  | zero => rfl
  | succ m ih =>
    cases i with
    | zero => rfl
    | succ j => exact ih j

theorem flatten_replicate_nil {α : Type u} (n : Nat) :
    (List.replicate n ([] : List α)).flatten = [] := by
  induction n with
  | zero => rfl
  | succ m ih => simp [List.replicate, ih]

theorem flatten_map_set_length {α : Type u} (bs : List (Option (List α))) :
    ∀ i, i < bs.length → ∀ b : Option (List α),
      (((bs.set i b).map (fun o => o.getD [])).flatten).length
          + ((bs.getD i none).getD []).length
        = ((bs.map (fun o => o.getD [])).flatten).length + (b.getD []).length := by
  induction bs with
  | nil => intro i h; simp at h
  | cons hd tl ih =>
    intro i h b
    cases i with
    | zero => simp [List.set]; omega
    | succ j =>
      have hj : j < tl.length := by simpa using h
      have := ih j hj b
      simp only [List.set, List.map_cons, List.flatten_cons, List.length_append,
        List.getD_cons_succ]
      omega

/-! ## Chaining table-level lemmas -/

theorem ChainingHashTable.bucketAt_init (cap p q i : Nat) :
    (ChainingHashTable.init cap p q : ChainingHashTable V).bucketAt i = none :=
  listGetD_replicate cap i none

theorem ChainingHashTable.getitem_init (cap p q k : Nat) :
    (ChainingHashTable.init cap p q : ChainingHashTable V).getitem k = none := by
  unfold ChainingHashTable.getitem
  rw [ChainingHashTable.bucketAt_init]

theorem ChainingHashTable.items_init (cap p q : Nat) :
    (ChainingHashTable.init cap p q : ChainingHashTable V).items = [] := by
  unfold ChainingHashTable.items ChainingHashTable.init
  simp only [List.map_replicate, Option.getD_none]
  exact flatten_replicate_nil cap

theorem ChainingHashTable.chainInv_init {cap : Nat} (h : 0 < cap) (p q : Nat) :
    ChainInv (ChainingHashTable.init cap p q : ChainingHashTable V) := by
  refine ⟨h, by simp [ChainingHashTable.init], rfl, rfl, ?_, ?_, ?_, ?_⟩
  · intro i _ kv hkv
    simp [ChainingHashTable.bucketListAt, ChainingHashTable.bucketAt_init] at hkv
  · intro i _
    simp [ChainingHashTable.bucketListAt, ChainingHashTable.bucketAt_init]
  · intro i _
    rw [ChainingHashTable.bucketAt_init]
    simp
  · rw [ChainingHashTable.items_init]
    rfl

theorem ChainingHashTable.getitem_eq (t : ChainingHashTable V) (k : Nat) :
    t.getitem k = bucketGet (t.bucketListAt (k % t.capacity)) k := by
  unfold ChainingHashTable.getitem ChainingHashTable.bucketListAt
  cases t.bucketAt (k % t.capacity) with
  | none => rfl
  | some l => rfl

theorem ChainingHashTable.mem_items_iff_exists {t : ChainingHashTable V}
    {kv : Nat × V} :
    kv ∈ t.items ↔ ∃ i, i < t.buckets.length ∧ kv ∈ t.bucketListAt i := by
  unfold ChainingHashTable.items
  rw [List.mem_flatten]
  constructor
  · rintro ⟨l, hl, hkv⟩
    obtain ⟨b, hb, rfl⟩ := List.mem_map.mp hl
    obtain ⟨i, hi, hbi⟩ := List.mem_iff_getElem.mp hb
    refine ⟨i, hi, ?_⟩
    unfold ChainingHashTable.bucketListAt ChainingHashTable.bucketAt
    rw [List.getD_eq_getElem?_getD, List.getElem?_eq_getElem hi, hbi]
    exact hkv
  · rintro ⟨i, hi, hkv⟩
    refine ⟨t.bucketListAt i, List.mem_map.mpr ⟨t.buckets[i], List.getElem_mem hi, ?_⟩, hkv⟩
    unfold ChainingHashTable.bucketListAt ChainingHashTable.bucketAt
    rw [List.getD_eq_getElem?_getD, List.getElem?_eq_getElem hi]
    rfl

theorem ChainingHashTable.mem_items_iff {t : ChainingHashTable V}
    (ht : ChainInv t) {k : Nat} {v : V} :
    (k, v) ∈ t.items ↔ t.getitem k = some v := by
  rw [ChainingHashTable.mem_items_iff_exists]
  constructor
  · rintro ⟨i, hi, hkv⟩
    have hlen := ht.len_eq
    have hhome := ht.home_ok i (hlen ▸ hi) _ hkv
    rw [ChainingHashTable.getitem_eq]
    have : k % t.capacity = i := hhome
    rw [this]
    exact bucketGet_of_mem_nodup (ht.nodup_keys i (hlen ▸ hi)) hkv
  · intro hget
    rw [ChainingHashTable.getitem_eq] at hget
    have hk : k % t.capacity < t.buckets.length := by
      rw [ht.len_eq]
      exact Nat.mod_lt _ ht.cap_pos
    exact ⟨k % t.capacity, hk, mem_of_bucketGet_eq_some hget⟩

theorem ChainingHashTable.num_elements_pos_of_getitem {t : ChainingHashTable V}
    (ht : ChainInv t) {k : Nat} {v : V} (h : t.getitem k = some v) :
    0 < t.num_elements := by
  rw [ht.count_eq]
  exact List.length_pos.mpr
    (List.ne_nil_of_mem ((ChainingHashTable.mem_items_iff ht).mpr h))

theorem ChainingHashTable.bucketListAt_eq_getElem (t : ChainingHashTable V)
    {i : Nat} (hi : i < t.buckets.length) :
    t.bucketListAt i = (t.buckets[i]).getD [] := by
  unfold ChainingHashTable.bucketListAt ChainingHashTable.bucketAt
  rw [List.getD_eq_getElem?_getD, List.getElem?_eq_getElem hi]
  rfl

theorem ChainingHashTable.items_keys_nodup {t : ChainingHashTable V}
    (ht : ChainInv t) : (t.items.map Prod.fst).Nodup := by
  unfold ChainingHashTable.items
  rw [List.map_flatten, List.map_map]
  rw [List.nodup_flatten]
  constructor
  · intro l' hl'
    obtain ⟨b, hb, rfl⟩ := List.mem_map.mp hl'
    obtain ⟨i, hi, rfl⟩ := List.mem_iff_getElem.mp hb
    have hx : (List.map Prod.fst ∘ fun b : Option (List (Nat × V)) => b.getD [])
        (t.buckets[i]) = List.map Prod.fst (t.bucketListAt i) := by
      rw [ChainingHashTable.bucketListAt_eq_getElem t hi]
      rfl
    rw [hx]
    exact ht.nodup_keys i (ht.len_eq ▸ hi)
  · rw [List.pairwise_iff_getElem]
    intro i j hi hj hij
    simp only [List.length_map] at hi hj
    simp only [List.getElem_map]
    intro x hxi hxj
    have hbi : (List.map Prod.fst ∘ fun b : Option (List (Nat × V)) => b.getD [])
        (t.buckets[i]) = List.map Prod.fst (t.bucketListAt i) := by
      rw [ChainingHashTable.bucketListAt_eq_getElem t hi]; rfl
    have hbj : (List.map Prod.fst ∘ fun b : Option (List (Nat × V)) => b.getD [])
        (t.buckets[j]) = List.map Prod.fst (t.bucketListAt j) := by
      rw [ChainingHashTable.bucketListAt_eq_getElem t hj]; rfl
    rw [hbi] at hxi
    rw [hbj] at hxj
    obtain ⟨⟨k1, v1⟩, hm1, hf1⟩ := List.mem_map.mp hxi
    obtain ⟨⟨k2, v2⟩, hm2, hf2⟩ := List.mem_map.mp hxj
    have e1 : k1 % t.capacity = i := ht.home_ok i (ht.len_eq ▸ hi) _ hm1
    have e2 : k2 % t.capacity = j := ht.home_ok j (ht.len_eq ▸ hj) _ hm2
    simp only at hf1 hf2
    rw [hf1] at e1
    rw [hf2] at e2
    omega

theorem ChainingHashTable.bucketGet_items {t : ChainingHashTable V}
    (ht : ChainInv t) (k : Nat) : bucketGet t.items k = t.getitem k := by
  cases hg : t.getitem k with
  | some v =>
    exact bucketGet_of_mem_nodup (ChainingHashTable.items_keys_nodup ht)
      ((ChainingHashTable.mem_items_iff ht).mpr hg)
  | none =>
    rw [bucketGet_eq_none_iff]
    intro hk
    obtain ⟨⟨k1, v1⟩, hm, hf⟩ := List.mem_map.mp hk
    simp only at hf
    rw [hf] at hm
    rw [(ChainingHashTable.mem_items_iff ht).mp hm] at hg
    cases hg

theorem ChainingHashTable.setitemNoResize_spec {t : ChainingHashTable V}
    (ht : ChainInv t) (k : Nat) (v : V) :
    ChainSetSpec t (t.setitemNoResize k v) k v := by
  set i := k % t.capacity with hidef
  set l := t.bucketListAt i with hldef
  have hi : i < t.capacity := Nat.mod_lt _ ht.cap_pos
  have hib : i < t.buckets.length := ht.len_eq ▸ hi
  have hbuckets : (t.setitemNoResize k v).buckets
      = t.buckets.set i (some (bucketSet l k v)) := rfl
  have hnum : (t.setitemNoResize k v).num_elements
      = if (bucketGet l k).isSome then t.num_elements else t.num_elements + 1 := rfl
  have hcap : (t.setitemNoResize k v).capacity = t.capacity := rfl
  have hblist_i : (t.setitemNoResize k v).bucketListAt i = bucketSet l k v := by
    unfold ChainingHashTable.bucketListAt ChainingHashTable.bucketAt
    rw [hbuckets, listGetD_set_self _ hib]
    rfl
  have hblist_ne : ∀ j, j ≠ i →
      (t.setitemNoResize k v).bucketListAt j = t.bucketListAt j := by
    intro j hj
    unfold ChainingHashTable.bucketListAt ChainingHashTable.bucketAt
    rw [hbuckets, listGetD_set_ne _ (fun h => hj h.symm)]
  have hget : ∀ k', (t.setitemNoResize k v).getitem k'
      = bucketGet ((t.setitemNoResize k v).bucketListAt (k' % t.capacity)) k' := by
    intro k'
    rw [ChainingHashTable.getitem_eq, hcap]
  have hgetself : (t.setitemNoResize k v).getitem k = some v := by
    rw [hget k, ← hidef, hblist_i]
    exact bucketGet_bucketSet_self l k v
  have hgetother : ∀ k', k' ≠ k →
      (t.setitemNoResize k v).getitem k' = t.getitem k' := by
    intro k' hk'
    rw [hget k', ChainingHashTable.getitem_eq t k']
    by_cases hj : k' % t.capacity = i
    · rw [hj, hblist_i, ← hldef]
      exact bucketGet_bucketSet_ne l v hk'
    · rw [hblist_ne _ hj]
  refine ⟨?_, hgetself, hgetother, ?_, rfl, rfl, rfl, ht.tombs_eq⟩
  · -- the invariant is preserved
    refine ⟨ht.cap_pos, ?_, ht.tombs_eq, ht.growth_eq, ?_, ?_, ?_, ?_⟩
    · rw [hbuckets, List.length_set, ht.len_eq]
      rfl
    · intro j hj kv hkv
      rw [hcap] at hj ⊢
      by_cases hji : j = i
      · subst hji
        rw [hblist_i] at hkv
        rcases mem_bucketSet hkv with hmem | rfl
        · exact ht.home_ok i hj kv hmem
        · exact hidef.symm
      · rw [hblist_ne _ hji] at hkv
        exact ht.home_ok j hj kv hkv
    · intro j hj
      rw [hcap] at hj
      by_cases hji : j = i
      · subst hji
        rw [hblist_i]
        by_cases hg : (bucketGet l k).isSome = true
        · rw [keys_bucketSet_of_isSome v hg]
          exact ht.nodup_keys i hj
        · have hnone : bucketGet l k = none :=
            Option.not_isSome_iff_eq_none.mp (by simpa using hg)
          rw [keys_bucketSet_of_none v hnone]
          simp only [List.nodup_append, List.nodup_cons, List.not_mem_nil,
            not_false_iff, List.nodup_nil, and_true, true_and]
          constructor
          · exact ht.nodup_keys i hj
          · intro x hx
            simp only [List.mem_singleton]
            intro hxk
            subst hxk
            exact (bucketGet_eq_none_iff.mp hnone) hx
      · rw [hblist_ne _ hji]
        exact ht.nodup_keys j hj
    · intro j hj
      rw [hcap] at hj
      by_cases hji : j = i
      · subst hji
        unfold ChainingHashTable.bucketAt
        rw [hbuckets, listGetD_set_self _ hib]
        intro hcontra
        exact bucketSet_ne_nil l k v (Option.some.injEq .. ▸ hcontra)
      · unfold ChainingHashTable.bucketAt
        rw [hbuckets, listGetD_set_ne _ (fun h => hji h.symm)]
        exact ht.no_empty j hj
    · -- count_eq
      have hflat := flatten_map_set_length t.buckets i hib (some (bucketSet l k v))
      have hl : ((t.buckets.getD i none).getD []) = l := rfl
      rw [hl] at hflat
      simp only [Option.getD_some] at hflat
      have hlen := length_bucketSet l k v
      have hcnt := ht.count_eq
      show (t.setitemNoResize k v).num_elements
        = ((((t.buckets.set i (some (bucketSet l k v))).map
            (fun o => o.getD [])).flatten)).length
      rw [hnum]
      by_cases hg : (bucketGet l k).isSome = true
      · rw [if_pos hg]
        rw [if_pos hg] at hlen
        unfold ChainingHashTable.items at hcnt
        omega
      · rw [if_neg hg]
        rw [if_neg hg] at hlen
        unfold ChainingHashTable.items at hcnt
        omega
  · -- the element count
    rw [hnum, ChainingHashTable.getitem_eq t k, ← hidef, ← hldef]

theorem firstSome_some {a : V} {b : Option V} : firstSome (some a) b = some a := rfl

theorem firstSome_none {b : Option V} : firstSome none b = b := rfl

theorem ChainingHashTable.delitem_none_iff (t : ChainingHashTable V) (k : Nat) :
    t.delitem k = none ↔ t.getitem k = none := by
  rcases hb : t.bucketAt (k % t.capacity) with _ | l
  · simp [ChainingHashTable.delitem, ChainingHashTable.getitem, hb]
  · by_cases hg : (bucketGet l k).isSome = true
    · simp [ChainingHashTable.delitem, ChainingHashTable.getitem, hb, hg,
        Option.isSome_iff_ne_none.mp hg]
    · have hnone := Option.not_isSome_iff_eq_none.mp (by simpa using hg)
      simp [ChainingHashTable.delitem, ChainingHashTable.getitem, hb, hnone]

theorem ChainingHashTable.delitem_spec {t t' : ChainingHashTable V} {k : Nat}
    (ht : ChainInv t) (h : t.delitem k = some t') : ChainDelSpec t t' k := by
  have hi0 : k % t.capacity < t.capacity := Nat.mod_lt _ ht.cap_pos
  simp only [ChainingHashTable.delitem] at h
  rcases hb : t.bucketAt (k % t.capacity) with _ | l
  · simp only [hb] at h
    exact Option.noConfusion h
  · simp only [hb] at h
    by_cases hg : (bucketGet l k).isSome = true
    · rw [if_pos hg] at h
      set i := k % t.capacity with hidef
      have hi : i < t.capacity := hi0
      have hib : i < t.buckets.length := ht.len_eq ▸ hi
      injection h with ht'
      obtain ⟨v0, hv0⟩ := Option.isSome_iff_exists.mp hg
      have hl : t.bucketListAt i = l := by
        unfold ChainingHashTable.bucketListAt
        rw [hb]
        rfl
      have hgeti : t.getitem k = bucketGet l k := by
        rw [ChainingHashTable.getitem_eq, ← hidef, hl]
      have hnodupl : (List.map Prod.fst l).Nodup := hl ▸ ht.nodup_keys i hi
      have hbuckets : t'.buckets
          = t.buckets.set i
              (if (bucketDel l k).isEmpty then none else some (bucketDel l k)) := by
        rw [← ht']
      have hnum' : t'.num_elements = t.num_elements - 1 := by rw [← ht']
      have hcap' : t'.capacity = t.capacity := by rw [← ht']
      have hmn' : t'.mlf_num = t.mlf_num := by rw [← ht']
      have hmd' : t'.mlf_den = t.mlf_den := by rw [← ht']
      have hgr' : t'.growth_factor = t.growth_factor := by rw [← ht']
      have htb' : t'.num_tombstones = t.num_tombstones := by rw [← ht']
      have hbgetD : (if (bucketDel l k).isEmpty then none
          else some (bucketDel l k)).getD [] = bucketDel l k := by
        by_cases he : (bucketDel l k).isEmpty = true
        · simp [he, List.isEmpty_iff.mp he]
        · simp [he]
      have hblist_i : t'.bucketListAt i = bucketDel l k := by
        unfold ChainingHashTable.bucketListAt ChainingHashTable.bucketAt
        rw [hbuckets, listGetD_set_self _ hib]
        exact hbgetD
      have hblist_ne : ∀ j, j ≠ i → t'.bucketListAt j = t.bucketListAt j := by
        intro j hj
        unfold ChainingHashTable.bucketListAt ChainingHashTable.bucketAt
        rw [hbuckets, listGetD_set_ne _ (fun hh => hj hh.symm)]
      have hget : ∀ k', t'.getitem k'
          = bucketGet (t'.bucketListAt (k' % t.capacity)) k' := by
        intro k'
        rw [ChainingHashTable.getitem_eq, hcap']
      have hpos : 0 < t.num_elements :=
        ChainingHashTable.num_elements_pos_of_getitem ht (hgeti ▸ hv0)
      refine ⟨?_, ?_, ?_, by omega, hcap', hmn', hmd', hgr', htb' ▸ ht.tombs_eq⟩
      · -- invariant
        refine ⟨hcap' ▸ ht.cap_pos, ?_, htb' ▸ ht.tombs_eq, hgr' ▸ ht.growth_eq,
          ?_, ?_, ?_, ?_⟩
        · rw [hbuckets, List.length_set, ht.len_eq, hcap']
        · intro j hj kv hkv
          rw [hcap'] at hj ⊢
          by_cases hji : j = i
          · subst hji
            rw [hblist_i] at hkv
            exact ht.home_ok i hj kv (hl ▸ (bucketDel_sublist l k).subset hkv)
          · rw [hblist_ne _ hji] at hkv
            exact ht.home_ok j hj kv hkv
        · intro j hj
          rw [hcap'] at hj
          by_cases hji : j = i
          · subst hji
            rw [hblist_i]
            exact ((bucketDel_sublist l k).map Prod.fst).nodup hnodupl
          · rw [hblist_ne _ hji]
            exact ht.nodup_keys j hj
        · intro j hj
          rw [hcap'] at hj
          by_cases hji : j = i
          · subst hji
            unfold ChainingHashTable.bucketAt
            rw [hbuckets, listGetD_set_self _ hib]
            by_cases he : (bucketDel l k).isEmpty = true
            · simp [he]
            · rw [if_neg he]
              intro hco
              rw [List.isEmpty_iff.mpr (Option.some.injEq .. ▸ hco)] at he
              exact he rfl
          · unfold ChainingHashTable.bucketAt
            rw [hbuckets, listGetD_set_ne _ (fun hh => hji hh.symm)]
            exact ht.no_empty j hj
        · -- count
          have hflat := flatten_map_set_length t.buckets i hib
            (if (bucketDel l k).isEmpty then none else some (bucketDel l k))
          have hgl : ((t.buckets.getD i none).getD []) = l := by
            show t.bucketListAt i = l
            exact hl
          rw [hgl, hbgetD] at hflat
          have hld := length_bucketDel hg
          have hcnt := ht.count_eq
          show t'.num_elements
            = ((t'.buckets.map (fun o => o.getD [])).flatten).length
          rw [hnum', hbuckets]
          unfold ChainingHashTable.items at hcnt
          omega
      · -- the deleted key is gone
        rw [hget k, ← hidef, hblist_i]
        exact bucketGet_bucketDel_self hnodupl
      · -- other keys unchanged
        intro k' hk'
        rw [hget k', ChainingHashTable.getitem_eq t k']
        by_cases hj : k' % t.capacity = i
        · rw [hj, hblist_i, hl]
          exact bucketGet_bucketDel_ne l hk'
        · rw [hblist_ne _ hj]
    · rw [if_neg hg] at h
      cases h

theorem ChainSetSpec.trans_resize {t t' t'' : ChainingHashTable V} {k : Nat}
    {v : V} (hS : ChainSetSpec t t' k v) (hR : ChainResizeSpec t' t'') :
    ChainSetSpec t t'' k v := by
  refine ⟨hR.inv, ?_, ?_, ?_, ?_, ?_, ?_, hR.tombs⟩
  · rw [hR.get_all k, hS.get_self]
  · intro k' hk'
    rw [hR.get_all k', hS.get_other k' hk']
  · rw [hR.num, hS.num]
  · rw [hR.mnum, hS.mnum]
  · rw [hR.mden, hS.mden]
  · rw [hR.grow, hS.grow]

theorem ChainingHashTable.insertListFuel_spec (g : Nat)
    (hrec : ∀ (t : ChainingHashTable V) (k : Nat) (v : V), ChainInv t →
      ChainSetSpec t (ChainingHashTable.setitemFuel g t k v) k v) :
    ∀ (l : List (Nat × V)) (t0 : ChainingHashTable V), ChainInv t0 →
      (List.map Prod.fst l).Nodup →
      (∀ kv ∈ l, t0.getitem kv.1 = none) →
      ChainInv (ChainingHashTable.insertListFuel g t0 l) ∧
      (ChainingHashTable.insertListFuel g t0 l).num_elements
        = t0.num_elements + l.length ∧
      (∀ k, (ChainingHashTable.insertListFuel g t0 l).getitem k
        = firstSome (bucketGet l k) (t0.getitem k)) ∧
      (ChainingHashTable.insertListFuel g t0 l).mlf_num = t0.mlf_num ∧
      (ChainingHashTable.insertListFuel g t0 l).mlf_den = t0.mlf_den ∧
      (ChainingHashTable.insertListFuel g t0 l).growth_factor = t0.growth_factor ∧
      (ChainingHashTable.insertListFuel g t0 l).num_tombstones = 0 := by
  intro l
  induction l with
  | nil =>
    intro t0 ht0 _ _
    exact ⟨ht0, by simp [ChainingHashTable.insertListFuel],
      fun k => by simp [ChainingHashTable.insertListFuel, bucketGet, firstSome_none],
      rfl, rfl, rfl, ht0.tombs_eq⟩
  | cons kv rest ih =>
    intro t0 ht0 hnodup habs
    obtain ⟨k0, v0⟩ := kv
    have hfold : ChainingHashTable.insertListFuel g t0 ((k0, v0) :: rest)
        = ChainingHashTable.insertListFuel g
            (ChainingHashTable.setitemFuel g t0 k0 v0) rest := rfl
    have S := hrec t0 k0 v0 ht0
    simp only [List.map_cons, List.nodup_cons] at hnodup
    have habs0 : t0.getitem k0 = none := habs (k0, v0) (List.mem_cons_self _ _)
    have habs1 : ∀ kv ∈ rest,
        (ChainingHashTable.setitemFuel g t0 k0 v0).getitem kv.1 = none := by
      intro kv hkv
      have hne : kv.1 ≠ k0 := by
        intro he
        exact hnodup.1 (he ▸ List.mem_map_of_mem Prod.fst hkv)
      rw [S.get_other kv.1 hne]
      exact habs kv (List.mem_cons_of_mem _ hkv)
    obtain ⟨IH1, IH2, IH3, IH4, IH5, IH6, IH7⟩ :=
      ih (ChainingHashTable.setitemFuel g t0 k0 v0) S.inv hnodup.2 habs1
    rw [hfold]
    have hnum1 : (ChainingHashTable.setitemFuel g t0 k0 v0).num_elements
        = t0.num_elements + 1 := by
      rw [S.num, habs0]
      rfl
    refine ⟨IH1, by rw [IH2, hnum1, List.length_cons]; omega, ?_, by rw [IH4, S.mnum],
      by rw [IH5, S.mden], by rw [IH6, S.grow], IH7⟩
    intro k
    rw [IH3 k]
    by_cases hk : k = k0
    · subst hk
      have hrest : bucketGet rest k = none :=
        bucketGet_eq_none_iff.mpr hnodup.1
      rw [hrest, firstSome_none, S.get_self]
      rw [show bucketGet ((k, v0) :: rest) k = some v0 by simp [bucketGet]]
      rfl
    · rw [S.get_other k hk]
      have hcons : bucketGet ((k0, v0) :: rest) k = bucketGet rest k := by
        show (if k0 = k then some v0 else bucketGet rest k) = bucketGet rest k
        exact if_neg (fun h : k0 = k => hk h.symm)
      rw [hcons]

theorem ChainingHashTable.fuel_spec (fuel : Nat) :
    (∀ (t : ChainingHashTable V) (k : Nat) (v : V), ChainInv t →
      ChainSetSpec t (ChainingHashTable.setitemFuel fuel t k v) k v) ∧
    (∀ t : ChainingHashTable V, ChainInv t →
      ChainResizeSpec t (ChainingHashTable.resizeFuel fuel t)) := by
  induction fuel with
  | zero =>
    constructor
    · intro t k v ht
      exact ChainingHashTable.setitemNoResize_spec ht k v
    · intro t ht
      exact ⟨ht, fun _ => rfl, rfl, rfl, rfl, rfl, ht.tombs_eq⟩
  | succ g ih =>
    have hres : ∀ t : ChainingHashTable V, ChainInv t →
        ChainResizeSpec t (ChainingHashTable.resizeFuel (g+1) t) := by
      intro t ht
      have hcap2 : 0 < t.capacity * t.growth_factor := by
        have := ht.cap_pos
        rw [ht.growth_eq]
        omega
      have hinit : ChainInv (ChainingHashTable.init (t.capacity * t.growth_factor)
          t.mlf_num t.mlf_den : ChainingHashTable V) :=
        ChainingHashTable.chainInv_init hcap2 t.mlf_num t.mlf_den
      obtain ⟨IL1, IL2, IL3, IL4, IL5, IL6, IL7⟩ :=
        ChainingHashTable.insertListFuel_spec g ih.1 t.items
          (ChainingHashTable.init (t.capacity * t.growth_factor) t.mlf_num t.mlf_den)
          hinit (ChainingHashTable.items_keys_nodup ht)
          (fun kv _ => ChainingHashTable.getitem_init _ _ _ _)
      have hrz : ChainingHashTable.resizeFuel (g+1) t
          = ChainingHashTable.insertListFuel g
              (ChainingHashTable.init (t.capacity * t.growth_factor)
                t.mlf_num t.mlf_den) t.items := rfl
      rw [hrz]
      refine ⟨IL1, ?_, ?_, IL4, IL5, by rw [IL6]; exact ht.growth_eq.symm, IL7⟩
      · intro k
        rw [IL3 k, ChainingHashTable.getitem_init,
          ← ChainingHashTable.bucketGet_items ht k]
        cases bucketGet t.items k with
        | none => rfl
        | some v => rfl
      · rw [IL2, ht.count_eq]
        have h0 : (ChainingHashTable.init (t.capacity * t.growth_factor)
            t.mlf_num t.mlf_den : ChainingHashTable V).num_elements = 0 := rfl
        omega
    refine ⟨?_, hres⟩
    intro t k v ht
    rw [ChainingHashTable.setitemFuel_eq]
    simp only
    have S := ChainingHashTable.setitemNoResize_spec ht k v
    by_cases htr : (t.setitemNoResize k v).trigger = true
    · rw [if_pos htr]
      exact S.trans_resize (hres _ S.inv)
    · rw [if_neg htr]
      exact S

/-! ## Slot and probe-path lemmas (open addressing) -/

theorem Slot.keyOf_occ (k : Nat) (v : V) : (Slot.occ k v).keyOf = some k := rfl

theorem passable_tomb (k : Nat) : passable k (Slot.tomb : Slot V) :=
  ⟨rfl, by simp [Slot.keyOf]⟩

theorem passable_occ {k k' : Nat} (v : V) (h : k' ≠ k) :
    passable k (Slot.occ k' v) := ⟨rfl, by simp [Slot.keyOf, h]⟩

theorem not_passable_blank (k : Nat) : ¬ passable k (Slot.blank : Slot V) := by
  rintro ⟨h, -⟩
  simp [Slot.isBlank] at h

theorem not_passable_occ_self (k : Nat) (v : V) :
    ¬ passable k (Slot.occ k v) := by
  rintro ⟨-, h⟩
  simp [Slot.keyOf] at h

theorem OccOther.passable {slots : Nat → Slot V} {k j : Nat}
    (h : OccOther slots k j) : passable k (slots j) := by
  obtain ⟨k', v', he, hne⟩ := h
  rw [he]
  exact passable_occ v' hne

theorem pathFind_some {slots : Nat → Slot V} {k : Nat} :
    ∀ {n s i : Nat} {v : V}, pathFind slots k s n = some (i, v) →
      slots i = .occ k v ∧ s ≤ i ∧ i < s + n ∧
        ∀ j, s ≤ j → j < i → passable k (slots j) := by
  intro n
  induction n with
  | zero => intro s i v h; cases h
  | succ m ih =>
    intro s i v h
    unfold pathFind at h
    rcases he : slots s with _ | _ | ⟨k', v'⟩
    · rw [he] at h
      simp only [] at h
      exact Option.noConfusion h
    · rw [he] at h
      simp only [] at h
      obtain ⟨h1, h2, h3, h4⟩ := ih h
      refine ⟨h1, by omega, by omega, ?_⟩
      intro j hj1 hj2
      rcases Nat.lt_or_ge j (s+1) with hj | hj
      · have : j = s := by omega
        subst this
        rw [he]
        exact passable_tomb k
      · exact h4 j hj hj2
    · rw [he] at h
      simp only [] at h
      by_cases hk : k' = k
      · rw [if_pos hk] at h
        injection h with h12
        rw [Prod.mk.injEq] at h12
        obtain ⟨rfl, rfl⟩ := h12
        subst hk
        exact ⟨he, Nat.le_refl s, by omega,
          fun j hj1 hj2 => absurd (Nat.lt_of_le_of_lt hj1 hj2) (Nat.lt_irrefl s)⟩
      · rw [if_neg hk] at h
        obtain ⟨h1, h2, h3, h4⟩ := ih h
        refine ⟨h1, by omega, by omega, ?_⟩
        intro j hj1 hj2
        rcases Nat.lt_or_ge j (s+1) with hj | hj
        · have : j = s := by omega
          subst this
          rw [he]
          exact passable_occ v' hk
        · exact h4 j hj hj2

theorem pathFind_of_firstHit {slots : Nat → Slot V} {k : Nat} :
    ∀ {n s i : Nat} {v : V}, slots i = .occ k v → s ≤ i → i < s + n →
      (∀ j, s ≤ j → j < i → passable k (slots j)) →
      pathFind slots k s n = some (i, v) := by
  intro n
  induction n with
  | zero => intro s i v _ _ h3 _; omega
  | succ m ih =>
    intro s i v h1 h2 h3 h4
    unfold pathFind
    by_cases hsi : s = i
    · subst hsi
      rw [h1]
      simp
    · have hpass := h4 s (Nat.le_refl s) (by omega)
      rcases he : slots s with _ | _ | ⟨k', v'⟩
      · rw [he] at hpass
        exact absurd hpass (not_passable_blank k)
      · simp only []
        exact ih h1 (by omega) (by omega) (fun j hj1 hj2 => h4 j (by omega) hj2)
      · rw [he] at hpass
        have hk : k' ≠ k := by
          rintro rfl
          exact (not_passable_occ_self k' v') hpass
        simp only []
        rw [if_neg hk]
        exact ih h1 (by omega) (by omega) (fun j hj1 hj2 => h4 j (by omega) hj2)

theorem pathFind_none_of_no_occ {slots : Nat → Slot V} {k : Nat} :
    ∀ {n s : Nat}, (∀ j, s ≤ j → j < s + n → (slots j).keyOf ≠ some k) →
      pathFind slots k s n = none := by
  intro n
  induction n with
  | zero => intro s _; rfl
  | succ m ih =>
    intro s h
    unfold pathFind
    rcases he : slots s with _ | _ | ⟨k', v'⟩
    · rfl
    · simp only []
      exact ih (fun j hj1 hj2 => h j (by omega) (by omega))
    · have hk : k' ≠ k := by
        intro hkk
        exact h s (Nat.le_refl s) (by omega) (by rw [he, Slot.keyOf_occ, hkk])
      simp only []
      rw [if_neg hk]
      exact ih (fun j hj1 hj2 => h j (by omega) (by omega))

theorem pathFind_none_of_blank {slots : Nat → Slot V} {k : Nat} :
    ∀ {n s b : Nat}, slots b = .blank → s ≤ b → b < s + n →
      (∀ j, s ≤ j → j < b → passable k (slots j)) →
      pathFind slots k s n = none := by
  intro n
  induction n with
  | zero => intro s b _ _ h3 _; omega
  | succ m ih =>
    intro s b h1 h2 h3 h4
    unfold pathFind
    by_cases hsb : s = b
    · subst hsb
      rw [h1]
    · have hpass := h4 s (Nat.le_refl s) (by omega)
      rcases he : slots s with _ | _ | ⟨k', v'⟩
      · rfl
      · simp only []
        exact ih h1 (by omega) (by omega) (fun j hj1 hj2 => h4 j (by omega) hj2)
      · rw [he] at hpass
        have hk : k' ≠ k := by
          rintro rfl
          exact (not_passable_occ_self k' v') hpass
        simp only []
        rw [if_neg hk]
        exact ih h1 (by omega) (by omega) (fun j hj1 hj2 => h4 j (by omega) hj2)

theorem pathScanIns_spec {slots : Nat → Slot V} {k : Nat} :
    ∀ {n : Nat} (s : Nat) (ft : Option Nat),
      (∀ j, j < s → passable k (slots j)) → FtOk slots k s ft →
      InsLocSpec slots k s n (pathScanIns slots k s ft n) := by
  intro n
  induction n with
  | zero =>
    intro s ft _ _
    simp [pathScanIns, InsLocSpec]
  | succ m ih =>
    intro s ft hcom hft
    unfold pathScanIns
    rcases he : slots s with _ | _ | ⟨k', v'⟩
    · -- blank: place here or into the remembered tombstone
      rcases ft with _ | f
      · exact ⟨Nat.le_refl s, (by omega : s < s + (m+1)), he, hft⟩
      · obtain ⟨hf1, hf2, hf3⟩ := hft
        exact ⟨(by omega : f < s + (m+1)), hf2, hf3, s,
          (by omega : s < s + (m+1)), he, hcom⟩
    · -- tombstone: continue, remembering the first tombstone step
      have hcom' : ∀ j, j < s + 1 → passable k (slots j) := by
        intro j hj
        rcases Nat.lt_or_ge j s with h | h
        · exact hcom j h
        · have : j = s := by omega
          subst this
          rw [he]
          exact passable_tomb k
      have hft' : FtOk slots k (s+1) (some (ft.getD s)) := by
        rcases ft with _ | f
        · exact ⟨(by omega : s < s + 1), he, hft⟩
        · obtain ⟨hf1, hf2, hf3⟩ := hft
          exact ⟨(by omega : f < s + 1), hf2, hf3⟩
      have hres := ih (s+1) (some (ft.getD s)) hcom' hft'
      rcases hscan : pathScanIns slots k (s+1) (some (ft.getD s)) m
        with i | ⟨p, wt⟩ | _
      · rw [hscan] at hres
        obtain ⟨h1, h2, h3, h4⟩ := hres
        exact ⟨by omega, by omega, h3, h4⟩
      · rw [hscan] at hres
        cases wt
        · obtain ⟨h1, h2, h3, h4⟩ := hres
          exact ⟨by omega, by omega, h3, h4⟩
        · obtain ⟨h1, h2, h3, b, hb1, hb2, hb3⟩ := hres
          exact ⟨by omega, h2, h3, b, by omega, hb2, hb3⟩
      · rw [hscan] at hres
        trivial
    · -- occupied: overwrite in place or walk on
      simp only []
      by_cases hk : k' = k
      · rw [if_pos hk]
        subst hk
        exact ⟨Nat.le_refl s, by omega, ⟨v', he⟩, hcom⟩
      · rw [if_neg hk]
        have hcom' : ∀ j, j < s + 1 → passable k (slots j) := by
          intro j hj
          rcases Nat.lt_or_ge j s with h | h
          · exact hcom j h
          · have : j = s := by omega
            subst this
            rw [he]
            exact passable_occ v' hk
        have hft' : FtOk slots k (s+1) ft := by
          rcases ft with _ | f
          · intro j hj
            rcases Nat.lt_or_ge j s with h | h
            · exact hft j h
            · have : j = s := by omega
              subst this
              exact ⟨k', v', he, hk⟩
          · obtain ⟨hf1, hf2, hf3⟩ := hft
            exact ⟨by omega, hf2, hf3⟩
        have hres := ih (s+1) ft hcom' hft'
        rcases hscan : pathScanIns slots k (s+1) ft m with i | ⟨p, wt⟩ | _
        · rw [hscan] at hres
          obtain ⟨h1, h2, h3, h4⟩ := hres
          exact ⟨by omega, by omega, h3, h4⟩
        · rw [hscan] at hres
          cases wt
          · obtain ⟨h1, h2, h3, h4⟩ := hres
            exact ⟨by omega, by omega, h3, h4⟩
          · obtain ⟨h1, h2, h3, b, hb1, hb2, hb3⟩ := hres
            exact ⟨by omega, h2, h3, b, by omega, hb2, hb3⟩
        · rw [hscan] at hres
          trivial

/-! ## Open-addressing table-level lemmas -/

theorem optCount_none {α : Type u} : optCount (none : Option α) = 0 := rfl

theorem optCount_some {α : Type u} (a : α) : optCount (some a) = 1 := rfl

theorem length_filterMap_cons {α β : Type u} (f : α → Option β) (a : α)
    (l : List α) :
    (List.filterMap f (a :: l)).length = optCount (f a) + (List.filterMap f l).length := by
  cases hfa : f a <;> simp [List.filterMap_cons, hfa, optCount] <;> omega

theorem length_filter_cons {α : Type u} (p : α → Bool) (a : α) (l : List α) :
    (List.filter p (a :: l)).length = (p a).toNat + (List.filter p l).length := by
  cases hpa : p a <;> simp [List.filter_cons, hpa]
  omega

theorem length_filterMap_set {α β : Type u} (f : α → Option β) :
    ∀ (bs : List α) (q : Nat) (h : q < bs.length) (x : α),
      ((bs.set q x).filterMap f).length + optCount (f (bs.get ⟨q, h⟩))
        = (bs.filterMap f).length + optCount (f x) := by
  intro bs
  induction bs with
  | nil => intro q h x; simp at h
  | cons hd tl ih =>
    intro q h x
    cases q with
    | zero =>
      simp only [List.set, length_filterMap_cons, List.get]
      omega
    | succ r =>
      have hr : r < tl.length := by simpa using h
      have := ih r hr x
      simp only [List.set, length_filterMap_cons, List.get]
      omega

theorem length_filter_set {α : Type u} (p : α → Bool) :
    ∀ (bs : List α) (q : Nat) (h : q < bs.length) (x : α),
      ((bs.set q x).filter p).length + (p (bs.get ⟨q, h⟩)).toNat
        = (bs.filter p).length + (p x).toNat := by
  intro bs
  induction bs with
  | nil => intro q h x; simp at h
  | cons hd tl ih =>
    intro q h x
    cases q with
    | zero =>
      simp only [List.set, length_filter_cons, List.get]
      omega
    | succ r =>
      have hr : r < tl.length := by simpa using h
      have := ih r hr x
      simp only [List.set, length_filter_cons, List.get]
      omega

theorem filterMap_replicate_none {α β : Type u} {f : α → Option β} {a : α}
    (hf : f a = none) : ∀ n, (List.replicate n a).filterMap f = [] := by
  intro n
  induction n with
  | zero => rfl
  | succ m ih => simp [List.replicate, List.filterMap_cons, hf, ih]

theorem filter_replicate_false {α : Type u} {p : α → Bool} {a : α}
    (hp : p a = false) : ∀ n, (List.replicate n a).filter p = [] := by
  intro n
  induction n with
  | zero => rfl
  | succ m ih => simp [List.replicate, List.filter_cons, hp, ih]

theorem OpenHashTable.slotAt_init (cap p q i : Nat) :
    (OpenHashTable.init cap p q : OpenHashTable V).slotAt i = .blank := by
  show (List.replicate cap (Slot.blank : Slot V)).getD i Slot.blank = Slot.blank
  exact listGetD_replicate cap i Slot.blank

theorem OpenHashTable.getitem_init_oa (pk : ProbeKind) (cap p q k : Nat) :
    (OpenHashTable.init cap p q : OpenHashTable V).getitem pk k = none := by
  unfold OpenHashTable.getitem
  rw [pathFind_none_of_no_occ]
  · rfl
  · intro j _ _
    unfold OpenHashTable.slotsOf
    rw [OpenHashTable.slotAt_init]
    simp [Slot.keyOf]

theorem OpenHashTable.items_init_oa (cap p q : Nat) :
    (OpenHashTable.init cap p q : OpenHashTable V).items = [] :=
  filterMap_replicate_none rfl cap

theorem OpenHashTable.openInv_init (pk : ProbeKind) {cap : Nat} (h : 0 < cap)
    (p q : Nat) : OpenInv pk (OpenHashTable.init cap p q : OpenHashTable V) := by
  refine ⟨h, by simp [OpenHashTable.init], rfl, ?_, ?_, ?_⟩
  · rw [OpenHashTable.items_init_oa]
    rfl
  · show (0 : Nat)
        = (List.filter Slot.isTomb (List.replicate cap (Slot.blank : Slot V))).length
    rw [filter_replicate_false (by rfl) cap]
    rfl
  · intro p' _ k hk
    rw [OpenHashTable.slotAt_init] at hk
    simp [Slot.keyOf] at hk

theorem OpenHashTable.slotAt_occ_lt_length {t : OpenHashTable V} {q k : Nat}
    {v : V} (h : t.slotAt q = .occ k v) : q < t.buckets.length := by
  by_contra hq
  unfold OpenHashTable.slotAt at h
  rw [List.getD_eq_getElem?_getD, List.getElem?_eq_none (by omega)] at h
  cases h

theorem OpenHashTable.slotAt_eq_get {t : OpenHashTable V} {q : Nat}
    (h : q < t.buckets.length) : t.slotAt q = t.buckets.get ⟨q, h⟩ := by
  unfold OpenHashTable.slotAt
  rw [List.getD_eq_getElem?_getD, List.getElem?_eq_getElem h]
  rfl

theorem probeIdx_lt (pk : ProbeKind) {cap : Nat} (h : 0 < cap)
    (home i : Nat) : probeIdx pk cap home i < cap := by
  cases pk <;> exact Nat.mod_lt _ h

theorem Slot.entry_eq_some_iff {s : Slot V} {k : Nat} {v : V} :
    s.entry = some (k, v) ↔ s = .occ k v := by
  cases s with
  | blank => simp [Slot.entry]
  | tomb => simp [Slot.entry]
  | occ k0 v0 => simp [Slot.entry]

theorem OpenHashTable.mem_items_iff_pos {t : OpenHashTable V} {k : Nat} {v : V} :
    (k, v) ∈ t.items ↔ ∃ p, ∃ h : p < t.buckets.length,
      t.buckets.get ⟨p, h⟩ = .occ k v := by
  unfold OpenHashTable.items
  rw [List.mem_filterMap]
  constructor
  · rintro ⟨s, hs, hentry⟩
    obtain ⟨⟨p, hp⟩, rfl⟩ := List.mem_iff_get.mp hs
    exact ⟨p, hp, Slot.entry_eq_some_iff.mp hentry⟩
  · rintro ⟨p, hp, hocc⟩
    exact ⟨t.buckets.get ⟨p, hp⟩, List.get_mem _ _ _, Slot.entry_eq_some_iff.mpr hocc⟩

theorem OpenHashTable.occ_slot_getitem {pk : ProbeKind} {t : OpenHashTable V}
    (ht : OpenInv pk t) {p k : Nat} {v : V} (hp : p < t.buckets.length)
    (hocc : t.buckets.get ⟨p, hp⟩ = .occ k v) : t.getitem pk k = some v := by
  have hsl : t.slotAt p = .occ k v := by
    rw [OpenHashTable.slotAt_eq_get hp, hocc]
  have hpc : p < t.capacity := ht.len_eq ▸ hp
  obtain ⟨i, hi, hpi, hpass⟩ := ht.probe_ok p hpc k (by rw [hsl]; rfl)
  have hfind : pathFind (t.slotsOf pk k) k 0 t.capacity = some (i, v) := by
    apply pathFind_of_firstHit
    · unfold OpenHashTable.slotsOf
      rw [hpi]
      exact hsl
    · omega
    · omega
    · intro j _ hj2
      exact hpass j hj2
  unfold OpenHashTable.getitem
  rw [hfind]
  rfl

theorem OpenHashTable.getitem_some_iff {pk : ProbeKind} {t : OpenHashTable V}
    (ht : OpenInv pk t) {k : Nat} {v : V} :
    t.getitem pk k = some v ↔
      ∃ p, ∃ h : p < t.buckets.length, t.buckets.get ⟨p, h⟩ = .occ k v := by
  constructor
  · intro hget
    unfold OpenHashTable.getitem at hget
    obtain ⟨⟨i, v'⟩, hfind, hsnd⟩ := Option.map_eq_some'.mp hget
    simp only at hsnd
    subst hsnd
    obtain ⟨hocc, -, -, -⟩ := pathFind_some hfind
    unfold OpenHashTable.slotsOf at hocc
    have hq := OpenHashTable.slotAt_occ_lt_length hocc
    refine ⟨probeIdx pk t.capacity (k % t.capacity) i, hq, ?_⟩
    rw [← OpenHashTable.slotAt_eq_get hq]
    exact hocc
  · rintro ⟨p, hp, hocc⟩
    exact OpenHashTable.occ_slot_getitem ht hp hocc

theorem OpenHashTable.key_unique {pk : ProbeKind} {t : OpenHashTable V}
    (ht : OpenInv pk t) {p1 p2 k : Nat} {v1 v2 : V}
    (h1 : p1 < t.buckets.length) (h2 : p2 < t.buckets.length)
    (e1 : t.buckets.get ⟨p1, h1⟩ = .occ k v1)
    (e2 : t.buckets.get ⟨p2, h2⟩ = .occ k v2) : p1 = p2 := by
  have hs1 : t.slotAt p1 = .occ k v1 := by
    rw [OpenHashTable.slotAt_eq_get h1, e1]
  have hs2 : t.slotAt p2 = .occ k v2 := by
    rw [OpenHashTable.slotAt_eq_get h2, e2]
  obtain ⟨i1, hi1, hq1, hpass1⟩ := ht.probe_ok p1 (ht.len_eq ▸ h1) k (by rw [hs1]; rfl)
  obtain ⟨i2, hi2, hq2, hpass2⟩ := ht.probe_ok p2 (ht.len_eq ▸ h2) k (by rw [hs2]; rfl)
  rcases Nat.lt_trichotomy i1 i2 with hlt | heq | hgt
  · exfalso
    have := (hpass2 i1 hlt).2
    unfold OpenHashTable.slotsOf at this
    rw [hq1, hs1] at this
    exact this rfl
  · rw [← hq1, ← hq2, heq]
  · exfalso
    have := (hpass1 i2 hgt).2
    unfold OpenHashTable.slotsOf at this
    rw [hq2, hs2] at this
    exact this rfl

theorem OpenHashTable.no_occ_of_getitem_none {pk : ProbeKind}
    {t : OpenHashTable V} (ht : OpenInv pk t) {k : Nat}
    (h : t.getitem pk k = none) :
    ∀ p, ∀ hp : p < t.buckets.length, ∀ v : V,
      t.buckets.get ⟨p, hp⟩ ≠ .occ k v := by
  intro p hp v hocc
  rw [OpenHashTable.occ_slot_getitem ht hp hocc] at h
  cases h

theorem occ_keys_nodup : ∀ (bs : List (Slot V)),
    (∀ p1 p2, ∀ h1 : p1 < bs.length, ∀ h2 : p2 < bs.length, ∀ k : Nat, ∀ v1 v2 : V,
      bs.get ⟨p1, h1⟩ = .occ k v1 → bs.get ⟨p2, h2⟩ = .occ k v2 → p1 = p2) →
    ((bs.filterMap Slot.entry).map Prod.fst).Nodup := by
  intro bs
  induction bs with
  | nil =>
    intro _
    simp
  | cons s rest ih =>
    intro huniq
    have hrest := ih (fun p1 p2 h1 h2 k v1 v2 e1 e2 =>
      Nat.succ_injective
        (huniq (p1+1) (p2+1) (by simpa using h1) (by simpa using h2) k v1 v2 e1 e2))
    cases hs : s with
    | blank => simpa [List.filterMap_cons, Slot.entry] using hrest
    | tomb => simpa [List.filterMap_cons, Slot.entry] using hrest
    | occ k0 v0 =>
      simp only [List.filterMap_cons, Slot.entry, List.map_cons, List.nodup_cons]
      refine ⟨?_, hrest⟩
      intro hk0
      obtain ⟨⟨k1, v1⟩, hm1, hf1⟩ := List.mem_map.mp hk0
      simp only at hf1
      subst hf1
      obtain ⟨s', hs', hentry⟩ := List.mem_filterMap.mp hm1
      obtain ⟨⟨p, hp⟩, rfl⟩ := List.mem_iff_get.mp hs'
      have hocc' : rest.get ⟨p, hp⟩ = .occ k1 v1 := Slot.entry_eq_some_iff.mp hentry
      have h0 : (s :: rest).get ⟨0, by simp⟩ = Slot.occ k1 v0 := hs
      have hp1 : (s :: rest).get ⟨p+1, by simpa using hp⟩ = Slot.occ k1 v1 := hocc'
      exact Nat.noConfusion
        (huniq 0 (p+1) (by simp) (by simpa using hp) k1 v0 v1 h0 hp1)

theorem OpenHashTable.items_keys_nodup_oa {pk : ProbeKind} {t : OpenHashTable V}
    (ht : OpenInv pk t) : (t.items.map Prod.fst).Nodup :=
  occ_keys_nodup t.buckets
    (fun p1 p2 h1 h2 k v1 v2 e1 e2 => OpenHashTable.key_unique ht h1 h2 e1 e2)

theorem OpenHashTable.slotAt_set {t t' : OpenHashTable V} {q : Nat}
    {x : Slot V} (hb : t'.buckets = t.buckets.set q x)
    (hq : q < t.buckets.length) (p : Nat) :
    t'.slotAt p = if p = q then x else t.slotAt p := by
  unfold OpenHashTable.slotAt
  rw [hb]
  by_cases hpq : p = q
  · subst hpq
    rw [if_pos rfl]
    exact listGetD_set_self _ hq _ _
  · rw [if_neg hpq]
    exact listGetD_set_ne _ (fun h => hpq h.symm) _ _

theorem OpenHashTable.write_occ_spec (pk : ProbeKind) {t t' : OpenHashTable V}
    (ht : OpenInv pk t) {k : Nat} {v : V} {q i₀ : Nat}
    (hb : t'.buckets = t.buckets.set q (.occ k v))
    (hc : t'.capacity = t.capacity)
    (hq : q < t.buckets.length)
    (hqi : probeIdx pk t.capacity (k % t.capacity) i₀ = q)
    (hi₀ : i₀ < t.capacity)
    (hpass : ∀ j, j < i₀ → passable k (t.slotsOf pk k j))
    (hnoq : ∀ j, j < i₀ → probeIdx pk t.capacity (k % t.capacity) j ≠ q)
    (hqold : (t.slotAt q).keyOf = none ∨ (t.slotAt q).keyOf = some k)
    (honly : ∀ p', ∀ hp' : p' < t.buckets.length, p' ≠ q → ∀ v'' : V,
      t.buckets.get ⟨p', hp'⟩ ≠ .occ k v'') :
    t'.getitem pk k = some v ∧
    (∀ k'', k'' ≠ k → t'.getitem pk k'' = t.getitem pk k'') ∧
    (∀ p, p < t'.capacity → probeOkAt pk t' p) := by
  have hslot : ∀ p, t'.slotAt p = if p = q then .occ k v else t.slotAt p :=
    OpenHashTable.slotAt_set hb hq
  have hslots' : ∀ k'' j, t'.slotsOf pk k'' j
      = (if probeIdx pk t.capacity (k'' % t.capacity) j = q then .occ k v
         else t.slotAt (probeIdx pk t.capacity (k'' % t.capacity) j)) := by
    intro k'' j
    unfold OpenHashTable.slotsOf
    rw [hc, hslot]
  refine ⟨?_, ?_, ?_⟩
  · -- the written key reads back
    unfold OpenHashTable.getitem
    rw [show pathFind (t'.slotsOf pk k) k 0 t'.capacity = some (i₀, v) from ?_]
    · rfl
    apply pathFind_of_firstHit
    · rw [hslots' k i₀, hqi, if_pos rfl]
    · omega
    · rw [hc]
      omega
    · intro j _ hj2
      rw [hslots' k j, if_neg (hnoq j hj2)]
      exact hpass j hj2
  · -- other keys unchanged
    intro k'' hk''
    rcases hget : t.getitem pk k'' with _ | v''
    · -- absent stays absent
      unfold OpenHashTable.getitem
      rw [pathFind_none_of_no_occ]
      · rfl
      intro j _ _
      rw [hslots' k'' j]
      by_cases hjq : probeIdx pk t.capacity (k'' % t.capacity) j = q
      · rw [if_pos hjq]
        simp only [Slot.keyOf]
        simp [Ne.symm hk'']
      · rw [if_neg hjq]
        intro hkey
        rcases hsl : t.slotAt (probeIdx pk t.capacity (k'' % t.capacity) j)
          with _ | _ | ⟨k3, v3⟩
        · rw [hsl] at hkey
          cases hkey
        · rw [hsl] at hkey
          cases hkey
        · rw [hsl] at hkey
          have hk3 : k3 = k'' := by
            simpa [Slot.keyOf] using hkey
          subst hk3
          have hlen := OpenHashTable.slotAt_occ_lt_length hsl
          exact OpenHashTable.no_occ_of_getitem_none ht hget _ hlen v3
            (by rw [← OpenHashTable.slotAt_eq_get hlen]; exact hsl)
    · -- present stays present with the same value
      obtain ⟨p'', hp'', hocc''⟩ := (OpenHashTable.getitem_some_iff ht).mp hget
      have hpq : p'' ≠ q := by
        intro hcontra
        subst hcontra
        rw [← OpenHashTable.slotAt_eq_get hp''] at hocc''
        rcases hqold with h0 | h0 <;> rw [hocc''] at h0
        · cases h0
        · exact hk'' (by simpa [Slot.keyOf] using h0)
      obtain ⟨i'', hi'', hqi'', hpass''⟩ :=
        ht.probe_ok p'' (ht.len_eq ▸ hp'') k''
          (by rw [OpenHashTable.slotAt_eq_get hp'', hocc'']; rfl)
      unfold OpenHashTable.getitem
      rw [show pathFind (t'.slotsOf pk k'') k'' 0 t'.capacity = some (i'', v'')
          from ?_]
      · rfl
      apply pathFind_of_firstHit
      · rw [hslots' k'' i'', hqi'', if_neg hpq, OpenHashTable.slotAt_eq_get hp'']
        exact hocc''
      · omega
      · rw [hc]
        omega
      · intro j _ hj2
        rw [hslots' k'' j]
        by_cases hjq : probeIdx pk t.capacity (k'' % t.capacity) j = q
        · rw [if_pos hjq]
          exact passable_occ v (Ne.symm hk'')
        · rw [if_neg hjq]
          exact hpass'' j hj2
  · -- the probe-path condition still holds everywhere
    intro p hp
    intro key hkey
    rw [hslot p] at hkey
    by_cases hpq : p = q
    · rw [if_pos hpq] at hkey
      have hkeyk : k = key := by simpa [Slot.keyOf] using hkey
      subst hkeyk
      have h1 : i₀ < t'.capacity := by
        rw [hc]
        exact hi₀
      have h2 : probeIdx pk t'.capacity (k % t'.capacity) i₀ = p := by
        rw [hc, hpq]
        exact hqi
      refine ⟨i₀, h1, h2, ?_⟩
      intro j hj
      rw [hslots' k j, if_neg (hnoq j hj)]
      exact hpass j hj
    · rw [if_neg hpq] at hkey
      rcases hsl : t.slotAt p with _ | _ | ⟨k3, v3⟩ <;> rw [hsl] at hkey
      · cases hkey
      · cases hkey
      · have hk3 : k3 = key := by simpa [Slot.keyOf] using hkey
        subst hk3
        have hplen : p < t.buckets.length := OpenHashTable.slotAt_occ_lt_length hsl
        have hkne : k3 ≠ k := by
          intro hcontra
          subst hcontra
          exact honly p hplen hpq v3
            (by rw [← OpenHashTable.slotAt_eq_get hplen]; exact hsl)
        obtain ⟨i3, hi3, hqi3, hpass3⟩ :=
          ht.probe_ok p (ht.len_eq ▸ hplen) k3 (by rw [hsl]; rfl)
        refine ⟨i3, ?_, ?_, ?_⟩
        · rw [hc]
          omega
        · rw [hc]
          exact hqi3
        · intro j hj
          rw [hslots' k3 j]
          by_cases hjq : probeIdx pk t.capacity (k3 % t.capacity) j = q
          · rw [if_pos hjq]
            exact passable_occ v (Ne.symm hkne)
          · rw [if_neg hjq]
            exact hpass3 j hj

theorem OpenHashTable.setitemNoResize_spec_oa (pk : ProbeKind)
    {t : OpenHashTable V} (ht : OpenInv pk t) (k : Nat) (v : V) :
    ∀ t' ∈ t.setitemNoResize pk k v,
      OpenSetSpec pk t t' k v ∧ t'.capacity = t.capacity := by
  intro t' ht'
  rw [Option.mem_def] at ht'
  unfold OpenHashTable.setitemNoResize at ht'
  have hspec := @pathScanIns_spec V (t.slotsOf pk k) k t.capacity 0 none
    (fun j hj => absurd hj (Nat.not_lt_zero j))
    (fun j hj => absurd hj (Nat.not_lt_zero j))
  rcases hscan : pathScanIns (t.slotsOf pk k) k 0 none t.capacity
    with i | ⟨p, wt⟩ | _
  · -- update in place
    rw [hscan] at hspec
    simp only [hscan] at ht'
    injection ht' with hlit
    obtain ⟨-, hi, ⟨v₀, hocc⟩, hpass⟩ := hspec
    have hqcap : probeIdx pk t.capacity (k % t.capacity) i < t.capacity :=
      probeIdx_lt pk ht.cap_pos _ _
    have hq : probeIdx pk t.capacity (k % t.capacity) i < t.buckets.length :=
      ht.len_eq ▸ hqcap
    have hocc' : t.slotAt (probeIdx pk t.capacity (k % t.capacity) i)
        = .occ k v₀ := hocc
    have hgetk : t.getitem pk k = some v₀ :=
      OpenHashTable.occ_slot_getitem ht hq
        (by rw [← OpenHashTable.slotAt_eq_get hq]; exact hocc')
    have hb : t'.buckets
        = t.buckets.set (probeIdx pk t.capacity (k % t.capacity) i)
            (.occ k v) := by rw [← hlit]
    have hc : t'.capacity = t.capacity := by rw [← hlit]
    have hn : t'.num_elements = t.num_elements := by rw [← hlit]
    have htb : t'.num_tombstones = t.num_tombstones := by rw [← hlit]
    have hnoq : ∀ j, j < i →
        probeIdx pk t.capacity (k % t.capacity) j
          ≠ probeIdx pk t.capacity (k % t.capacity) i := by
      intro j hj hcontra
      have hp := (hpass j hj).2
      unfold OpenHashTable.slotsOf at hp
      rw [hcontra, hocc'] at hp
      exact hp rfl
    have honly : ∀ p', ∀ hp' : p' < t.buckets.length,
        p' ≠ probeIdx pk t.capacity (k % t.capacity) i → ∀ v'' : V,
        t.buckets.get ⟨p', hp'⟩ ≠ .occ k v'' := by
      intro p' hp' hne v'' he'
      exact hne (OpenHashTable.key_unique ht hp' hq he'
        (by rw [← OpenHashTable.slotAt_eq_get hq]; exact hocc'))
    obtain ⟨hgself, hgother, hpok⟩ :=
      OpenHashTable.write_occ_spec pk ht hb hc hq rfl (by omega) hpass hnoq
        (Or.inr (by rw [hocc']; rfl)) honly
    have hcnt := length_filterMap_set Slot.entry t.buckets _ hq (.occ k v)
    rw [← OpenHashTable.slotAt_eq_get hq, hocc'] at hcnt
    refine ⟨⟨?_, hgself, hgother, ?_, by omega, by rw [← hlit], by rw [← hlit],
      by rw [← hlit]⟩, hc⟩
    · refine ⟨by rw [hc]; exact ht.cap_pos, ?_, by rw [← hlit]; exact ht.growth_eq,
        ?_, ?_, hpok⟩
      · rw [hb, List.length_set, ht.len_eq, hc]
      · show t'.num_elements = t'.items.length
        unfold OpenHashTable.items
        rw [hb, hn, ht.n_eq]
        unfold OpenHashTable.items
        simp only [Slot.entry, optCount] at hcnt
        omega
      · show t'.num_tombstones = (List.filter Slot.isTomb t'.buckets).length
        have hft := length_filter_set Slot.isTomb t.buckets _ hq (.occ k v)
        rw [← OpenHashTable.slotAt_eq_get hq, hocc'] at hft
        rw [hb, htb, ht.t_eq]
        simp only [Slot.isTomb, Bool.toNat] at hft
        omega
    · rw [hgetk, hn]
      rfl
  · -- fresh placement, into a tombstone or a blank
    rw [hscan] at hspec
    simp only [hscan] at ht'
    have hqcap : probeIdx pk t.capacity (k % t.capacity) p < t.capacity :=
      probeIdx_lt pk ht.cap_pos _ _
    have hq : probeIdx pk t.capacity (k % t.capacity) p < t.buckets.length :=
      ht.len_eq ▸ hqcap
    cases wt
    · -- into a blank slot
      injection ht' with hlit
      obtain ⟨-, hp, hblank, hOccPre⟩ := hspec
      have hblank' : t.slotAt (probeIdx pk t.capacity (k % t.capacity) p)
          = .blank := hblank
      have hgetk : t.getitem pk k = none := by
        unfold OpenHashTable.getitem
        rw [pathFind_none_of_blank hblank (Nat.zero_le p) (by omega)
          (fun j _ hj2 => (hOccPre j hj2).passable)]
        rfl
      have hb : t'.buckets
          = t.buckets.set (probeIdx pk t.capacity (k % t.capacity) p)
              (.occ k v) := by rw [← hlit]
      have hc : t'.capacity = t.capacity := by rw [← hlit]
      have hn : t'.num_elements = t.num_elements + 1 := by rw [← hlit]
      have htb : t'.num_tombstones = t.num_tombstones := by rw [← hlit]
      have hnoq : ∀ j, j < p →
          probeIdx pk t.capacity (k % t.capacity) j
            ≠ probeIdx pk t.capacity (k % t.capacity) p := by
        intro j hj hcontra
        obtain ⟨k3, v3, he3, -⟩ := hOccPre j hj
        unfold OpenHashTable.slotsOf at he3
        rw [hcontra, hblank'] at he3
        cases he3
      have honly : ∀ p', ∀ hp' : p' < t.buckets.length,
          p' ≠ probeIdx pk t.capacity (k % t.capacity) p → ∀ v'' : V,
          t.buckets.get ⟨p', hp'⟩ ≠ .occ k v'' := by
        intro p' hp' hne v'' he'
        exact OpenHashTable.no_occ_of_getitem_none ht hgetk p' hp' v'' he'
      obtain ⟨hgself, hgother, hpok⟩ :=
        OpenHashTable.write_occ_spec pk ht hb hc hq rfl (by omega)
          (fun j hj => (hOccPre j hj).passable) hnoq
          (Or.inl (by rw [hblank']; rfl)) honly
      have hcnt := length_filterMap_set Slot.entry t.buckets _ hq (.occ k v)
      rw [← OpenHashTable.slotAt_eq_get hq, hblank'] at hcnt
      refine ⟨⟨?_, hgself, hgother, ?_, by omega, by rw [← hlit], by rw [← hlit],
        by rw [← hlit]⟩, hc⟩
      · refine ⟨by rw [hc]; exact ht.cap_pos, ?_, by rw [← hlit]; exact ht.growth_eq,
          ?_, ?_, hpok⟩
        · rw [hb, List.length_set, ht.len_eq, hc]
        · show t'.num_elements = t'.items.length
          unfold OpenHashTable.items
          rw [hb, hn, ht.n_eq]
          unfold OpenHashTable.items
          simp only [Slot.entry, optCount] at hcnt
          omega
        · show t'.num_tombstones = (List.filter Slot.isTomb t'.buckets).length
          have hft := length_filter_set Slot.isTomb t.buckets _ hq (.occ k v)
          rw [← OpenHashTable.slotAt_eq_get hq, hblank'] at hft
          rw [hb, htb, ht.t_eq]
          simp only [Slot.isTomb, Bool.toNat] at hft
          omega
      · rw [hgetk, hn]
        rfl
    · -- into the first tombstone on the path
      injection ht' with hlit
      obtain ⟨hp, htomb, hOccPre, b, hbcap, hblankb, hpassb⟩ := hspec
      have htomb' : t.slotAt (probeIdx pk t.capacity (k % t.capacity) p)
          = .tomb := htomb
      have hgetk : t.getitem pk k = none := by
        unfold OpenHashTable.getitem
        rw [pathFind_none_of_blank hblankb (Nat.zero_le b) (by omega)
          (fun j _ hj2 => hpassb j hj2)]
        rfl
      have hb : t'.buckets
          = t.buckets.set (probeIdx pk t.capacity (k % t.capacity) p)
              (.occ k v) := by rw [← hlit]
      have hc : t'.capacity = t.capacity := by rw [← hlit]
      have hn : t'.num_elements = t.num_elements + 1 := by rw [← hlit]
      have htb : t'.num_tombstones = t.num_tombstones - 1 := by rw [← hlit]
      have hnoq : ∀ j, j < p →
          probeIdx pk t.capacity (k % t.capacity) j
            ≠ probeIdx pk t.capacity (k % t.capacity) p := by
        intro j hj hcontra
        obtain ⟨k3, v3, he3, -⟩ := hOccPre j hj
        unfold OpenHashTable.slotsOf at he3
        rw [hcontra, htomb'] at he3
        cases he3
      have honly : ∀ p', ∀ hp' : p' < t.buckets.length,
          p' ≠ probeIdx pk t.capacity (k % t.capacity) p → ∀ v'' : V,
          t.buckets.get ⟨p', hp'⟩ ≠ .occ k v'' := by
        intro p' hp' hne v'' he'
        exact OpenHashTable.no_occ_of_getitem_none ht hgetk p' hp' v'' he'
      obtain ⟨hgself, hgother, hpok⟩ :=
        OpenHashTable.write_occ_spec pk ht hb hc hq rfl (by omega)
          (fun j hj => (hOccPre j hj).passable) hnoq
          (Or.inl (by rw [htomb']; rfl)) honly
      have hcnt := length_filterMap_set Slot.entry t.buckets _ hq (.occ k v)
      rw [← OpenHashTable.slotAt_eq_get hq, htomb'] at hcnt
      have htpos : 0 < t.num_tombstones := by
        rw [ht.t_eq]
        apply List.length_pos.mpr
        apply List.ne_nil_of_mem
        apply List.mem_filter.mpr
        constructor
        · exact List.get_mem t.buckets _ hq
        · rw [← OpenHashTable.slotAt_eq_get hq, htomb']
          rfl
      refine ⟨⟨?_, hgself, hgother, ?_, by omega, by rw [← hlit], by rw [← hlit],
        by rw [← hlit]⟩, hc⟩
      · refine ⟨by rw [hc]; exact ht.cap_pos, ?_, by rw [← hlit]; exact ht.growth_eq,
          ?_, ?_, hpok⟩
        · rw [hb, List.length_set, ht.len_eq, hc]
        · show t'.num_elements = t'.items.length
          unfold OpenHashTable.items
          rw [hb, hn, ht.n_eq]
          unfold OpenHashTable.items
          simp only [Slot.entry, optCount] at hcnt
          omega
        · show t'.num_tombstones = (List.filter Slot.isTomb t'.buckets).length
          have hft := length_filter_set Slot.isTomb t.buckets _ hq (.occ k v)
          rw [← OpenHashTable.slotAt_eq_get hq, htomb'] at hft
          rw [hb, htb]
          have hte := ht.t_eq
          simp [Slot.isTomb] at hft
          omega
      · rw [hgetk, hn]
        rfl
  · -- TableFull: nothing was returned
    simp only [hscan] at ht'
    exact Option.noConfusion ht'

theorem OpenHashTable.delitem_none_iff_oa (pk : ProbeKind) (t : OpenHashTable V)
    (k : Nat) : t.delitem pk k = none ↔ t.getitem pk k = none := by
  unfold OpenHashTable.delitem OpenHashTable.getitem
  rcases hfind : pathFind (t.slotsOf pk k) k 0 t.capacity with _ | ⟨i, v⟩
  · simp
  · simp

theorem OpenHashTable.write_tomb_spec (pk : ProbeKind) {t t' : OpenHashTable V}
    (ht : OpenInv pk t) {k q : Nat} {v : V}
    (hb : t'.buckets = t.buckets.set q .tomb)
    (hc : t'.capacity = t.capacity)
    (hq : q < t.buckets.length)
    (hqocc : t.slotAt q = .occ k v) :
    t'.getitem pk k = none ∧
    (∀ k'', k'' ≠ k → t'.getitem pk k'' = t.getitem pk k'') ∧
    (∀ p, p < t'.capacity → probeOkAt pk t' p) := by
  have hslot : ∀ p, t'.slotAt p = if p = q then .tomb else t.slotAt p :=
    OpenHashTable.slotAt_set hb hq
  have hslots' : ∀ k'' j, t'.slotsOf pk k'' j
      = (if probeIdx pk t.capacity (k'' % t.capacity) j = q then .tomb
         else t.slotAt (probeIdx pk t.capacity (k'' % t.capacity) j)) := by
    intro k'' j
    unfold OpenHashTable.slotsOf
    rw [hc, hslot]
  have honly : ∀ p', ∀ hp' : p' < t.buckets.length, p' ≠ q → ∀ v'' : V,
      t.buckets.get ⟨p', hp'⟩ ≠ .occ k v'' := by
    intro p' hp' hne v'' he'
    exact hne (OpenHashTable.key_unique ht hp' hq he'
      (by rw [← OpenHashTable.slotAt_eq_get hq]; exact hqocc))
  refine ⟨?_, ?_, ?_⟩
  · -- the deleted key is gone
    unfold OpenHashTable.getitem
    rw [pathFind_none_of_no_occ]
    · rfl
    intro j _ _
    rw [hslots' k j]
    by_cases hjq : probeIdx pk t.capacity (k % t.capacity) j = q
    · rw [if_pos hjq]
      simp [Slot.keyOf]
    · rw [if_neg hjq]
      intro hkey
      rcases hsl : t.slotAt (probeIdx pk t.capacity (k % t.capacity) j)
        with _ | _ | ⟨k3, v3⟩ <;> rw [hsl] at hkey
      · cases hkey
      · cases hkey
      · have hk3 : k3 = k := by simpa [Slot.keyOf] using hkey
        subst hk3
        have hlen := OpenHashTable.slotAt_occ_lt_length hsl
        exact honly _ hlen hjq v3
          (by rw [← OpenHashTable.slotAt_eq_get hlen]; exact hsl)
  · -- other keys unchanged
    intro k'' hk''
    rcases hget : t.getitem pk k'' with _ | v''
    · unfold OpenHashTable.getitem
      rw [pathFind_none_of_no_occ]
      · rfl
      intro j _ _
      rw [hslots' k'' j]
      by_cases hjq : probeIdx pk t.capacity (k'' % t.capacity) j = q
      · rw [if_pos hjq]
        simp [Slot.keyOf]
      · rw [if_neg hjq]
        intro hkey
        rcases hsl : t.slotAt (probeIdx pk t.capacity (k'' % t.capacity) j)
          with _ | _ | ⟨k3, v3⟩ <;> rw [hsl] at hkey
        · cases hkey
        · cases hkey
        · have hk3 : k3 = k'' := by simpa [Slot.keyOf] using hkey
          subst hk3
          have hlen := OpenHashTable.slotAt_occ_lt_length hsl
          exact OpenHashTable.no_occ_of_getitem_none ht hget _ hlen v3
            (by rw [← OpenHashTable.slotAt_eq_get hlen]; exact hsl)
    · obtain ⟨p'', hp'', hocc''⟩ := (OpenHashTable.getitem_some_iff ht).mp hget
      have hpq : p'' ≠ q := by
        intro hcontra
        subst hcontra
        rw [← OpenHashTable.slotAt_eq_get hp'', hqocc] at hocc''
        exact hk'' (Slot.occ.injEq .. ▸ hocc'').1.symm
      obtain ⟨i'', hi'', hqi'', hpass''⟩ :=
        ht.probe_ok p'' (ht.len_eq ▸ hp'') k''
          (by rw [OpenHashTable.slotAt_eq_get hp'', hocc'']; rfl)
      unfold OpenHashTable.getitem
      rw [show pathFind (t'.slotsOf pk k'') k'' 0 t'.capacity = some (i'', v'')
          from ?_]
      · rfl
      apply pathFind_of_firstHit
      · rw [hslots' k'' i'', hqi'', if_neg hpq, OpenHashTable.slotAt_eq_get hp'']
        exact hocc''
      · omega
      · rw [hc]
        omega
      · intro j _ hj2
        rw [hslots' k'' j]
        by_cases hjq : probeIdx pk t.capacity (k'' % t.capacity) j = q
        · rw [if_pos hjq]
          exact passable_tomb k''
        · rw [if_neg hjq]
          exact hpass'' j hj2
  · -- the probe-path condition still holds everywhere
    intro p hp key hkey
    rw [hslot p] at hkey
    by_cases hpq : p = q
    · rw [if_pos hpq] at hkey
      cases hkey
    · rw [if_neg hpq] at hkey
      rcases hsl : t.slotAt p with _ | _ | ⟨k3, v3⟩ <;> rw [hsl] at hkey
      · cases hkey
      · cases hkey
      · have hk3 : k3 = key := by simpa [Slot.keyOf] using hkey
        subst hk3
        have hplen : p < t.buckets.length := OpenHashTable.slotAt_occ_lt_length hsl
        obtain ⟨i3, hi3, hqi3, hpass3⟩ :=
          ht.probe_ok p (ht.len_eq ▸ hplen) k3 (by rw [hsl]; rfl)
        refine ⟨i3, ?_, ?_, ?_⟩
        · rw [hc]
          omega
        · rw [hc]
          exact hqi3
        · intro j hj
          rw [hslots' k3 j]
          by_cases hjq : probeIdx pk t.capacity (k3 % t.capacity) j = q
          · rw [if_pos hjq]
            exact passable_tomb k3
          · rw [if_neg hjq]
            exact hpass3 j hj

theorem OpenHashTable.delitem_spec_oa (pk : ProbeKind) {t : OpenHashTable V}
    (ht : OpenInv pk t) (k : Nat) :
    ∀ t' ∈ t.delitem pk k, OpenDelSpec pk t t' k := by
  intro t' ht'
  rw [Option.mem_def] at ht'
  unfold OpenHashTable.delitem at ht'
  rcases hfind : pathFind (t.slotsOf pk k) k 0 t.capacity with _ | ⟨i, v⟩
  · simp only [hfind] at ht'
    exact Option.noConfusion ht'
  · simp only [hfind] at ht'
    injection ht' with hlit
    obtain ⟨hocc, -, hi, hpass⟩ := pathFind_some hfind
    have hqcap : probeIdx pk t.capacity (k % t.capacity) i < t.capacity :=
      probeIdx_lt pk ht.cap_pos _ _
    have hq : probeIdx pk t.capacity (k % t.capacity) i < t.buckets.length :=
      ht.len_eq ▸ hqcap
    have hocc' : t.slotAt (probeIdx pk t.capacity (k % t.capacity) i)
        = .occ k v := hocc
    have hb : t'.buckets
        = t.buckets.set (probeIdx pk t.capacity (k % t.capacity) i) .tomb := by
      rw [← hlit]
    have hc : t'.capacity = t.capacity := by rw [← hlit]
    have hn : t'.num_elements = t.num_elements - 1 := by rw [← hlit]
    have htb : t'.num_tombstones = t.num_tombstones + 1 := by rw [← hlit]
    have hnpos : 0 < t.num_elements := by
      rw [ht.n_eq]
      apply List.length_pos.mpr
      apply List.ne_nil_of_mem
      exact OpenHashTable.mem_items_iff_pos.mpr
        ⟨_, hq, by rw [← OpenHashTable.slotAt_eq_get hq]; exact hocc'⟩
    obtain ⟨hgself, hgother, hpok⟩ :=
      OpenHashTable.write_tomb_spec pk ht hb hc hq hocc'
    have hcnt := length_filterMap_set Slot.entry t.buckets _ hq (Slot.tomb)
    rw [← OpenHashTable.slotAt_eq_get hq, hocc'] at hcnt
    have hft := length_filter_set Slot.isTomb t.buckets _ hq (Slot.tomb)
    rw [← OpenHashTable.slotAt_eq_get hq, hocc'] at hft
    refine ⟨?_, hgself, hgother, by omega, hc, htb, by rw [← hlit],
      by rw [← hlit], by rw [← hlit]⟩
    refine ⟨by rw [hc]; exact ht.cap_pos, ?_, by rw [← hlit]; exact ht.growth_eq,
      ?_, ?_, hpok⟩
    · rw [hb, List.length_set, ht.len_eq, hc]
    · show t'.num_elements = t'.items.length
      unfold OpenHashTable.items
      rw [hb, hn, ht.n_eq]
      unfold OpenHashTable.items
      simp only [Slot.entry, optCount] at hcnt
      omega
    · show t'.num_tombstones = (List.filter Slot.isTomb t'.buckets).length
      rw [hb, htb, ht.t_eq]
      simp [Slot.isTomb] at hft
      omega

theorem OpenHashTable.mem_items_iff_oa {pk : ProbeKind} {t : OpenHashTable V}
    (ht : OpenInv pk t) {k : Nat} {v : V} :
    (k, v) ∈ t.items ↔ t.getitem pk k = some v := by
  rw [OpenHashTable.mem_items_iff_pos, OpenHashTable.getitem_some_iff ht]

theorem OpenHashTable.bucketGet_items_oa {pk : ProbeKind} {t : OpenHashTable V}
    (ht : OpenInv pk t) (k : Nat) : bucketGet t.items k = t.getitem pk k := by
  cases hg : t.getitem pk k with
  | some v =>
    exact bucketGet_of_mem_nodup (OpenHashTable.items_keys_nodup_oa ht)
      ((OpenHashTable.mem_items_iff_oa ht).mpr hg)
  | none =>
    rw [bucketGet_eq_none_iff]
    intro hk
    obtain ⟨⟨k1, v1⟩, hm, hf⟩ := List.mem_map.mp hk
    simp only at hf
    rw [hf] at hm
    rw [(OpenHashTable.mem_items_iff_oa ht).mp hm] at hg
    cases hg

theorem OpenHashTable.insertListFuel_none (pk : ProbeKind) (g : Nat) :
    ∀ l : List (Nat × V), OpenHashTable.insertListFuel pk g none l = none := by
  intro l
  induction l with
  | nil => rfl
  | cons kv rest ih => exact ih

theorem OpenSetSpec.trans_resize_oa {pk : ProbeKind} {t t' t'' : OpenHashTable V}
    {k : Nat} {v : V} (hS : OpenSetSpec pk t t' k v)
    (hR : OpenResizeSpec pk t' t'') : OpenSetSpec pk t t'' k v := by
  refine ⟨hR.inv, ?_, ?_, ?_, ?_, ?_, ?_, ?_⟩
  · rw [hR.get_all k, hS.get_self]
  · intro k' hk'
    rw [hR.get_all k', hS.get_other k' hk']
  · rw [hR.num, hS.num]
  · exact Nat.le_trans hR.tombs_le hS.tombs_le
  · rw [hR.mnum, hS.mnum]
  · rw [hR.mden, hS.mden]
  · rw [hR.grow, hS.grow]

theorem OpenHashTable.insertListFuel_spec_oa (pk : ProbeKind) (g : Nat)
    (hrec : ∀ (t : OpenHashTable V) (k : Nat) (v : V), OpenInv pk t →
      ∀ t' ∈ OpenHashTable.setitemFuel pk g t k v, OpenSetSpec pk t t' k v) :
    ∀ (l : List (Nat × V)) (t0 : OpenHashTable V), OpenInv pk t0 →
      (List.map Prod.fst l).Nodup →
      (∀ kv ∈ l, t0.getitem pk kv.1 = none) →
      ∀ tr ∈ OpenHashTable.insertListFuel pk g (some t0) l,
        OpenInv pk tr ∧
        tr.num_elements = t0.num_elements + l.length ∧
        (∀ k, tr.getitem pk k = firstSome (bucketGet l k) (t0.getitem pk k)) ∧
        tr.mlf_num = t0.mlf_num ∧ tr.mlf_den = t0.mlf_den ∧
        tr.growth_factor = t0.growth_factor ∧
        tr.num_tombstones ≤ t0.num_tombstones := by
  intro l
  induction l with
  | nil =>
    intro t0 ht0 _ _ tr htr
    rw [Option.mem_def] at htr
    injection htr with htr
    subst htr
    exact ⟨ht0, by simp, fun k => by simp [bucketGet, firstSome_none],
      rfl, rfl, rfl, Nat.le_refl _⟩
  | cons kv rest ih =>
    intro t0 ht0 hnodup habs tr htr
    obtain ⟨k0, v0⟩ := kv
    have hfold : OpenHashTable.insertListFuel pk g (some t0) ((k0, v0) :: rest)
        = OpenHashTable.insertListFuel pk g
            (OpenHashTable.setitemFuel pk g t0 k0 v0) rest := rfl
    rw [hfold] at htr
    rcases hset : OpenHashTable.setitemFuel pk g t0 k0 v0 with _ | t1
    · rw [hset, OpenHashTable.insertListFuel_none] at htr
      exact Option.noConfusion htr
    · rw [hset] at htr
      have S := hrec t0 k0 v0 ht0 t1 (by rw [hset]; rfl)
      simp only [List.map_cons, List.nodup_cons] at hnodup
      have habs0 : t0.getitem pk k0 = none := habs (k0, v0) (List.mem_cons_self _ _)
      have habs1 : ∀ kv ∈ rest, t1.getitem pk kv.1 = none := by
        intro kv hkv
        have hne : kv.1 ≠ k0 := by
          intro he
          exact hnodup.1 (he ▸ List.mem_map_of_mem Prod.fst hkv)
        rw [S.get_other kv.1 hne]
        exact habs kv (List.mem_cons_of_mem _ hkv)
      obtain ⟨IH1, IH2, IH3, IH4, IH5, IH6, IH7⟩ :=
        ih t1 S.inv hnodup.2 habs1 tr htr
      have hnum1 : t1.num_elements = t0.num_elements + 1 := by
        rw [S.num, habs0]
        rfl
      refine ⟨IH1, by rw [IH2, hnum1, List.length_cons]; omega, ?_,
        by rw [IH4, S.mnum], by rw [IH5, S.mden], by rw [IH6, S.grow],
        Nat.le_trans IH7 S.tombs_le⟩
      intro k
      rw [IH3 k]
      by_cases hk : k = k0
      · subst hk
        have hrest : bucketGet rest k = none :=
          bucketGet_eq_none_iff.mpr hnodup.1
        rw [hrest, firstSome_none, S.get_self]
        rw [show bucketGet ((k, v0) :: rest) k = some v0 from by
          show (if k = k then some v0 else bucketGet rest k) = some v0
          exact if_pos rfl]
        rfl
      · rw [S.get_other k hk]
        have hcons : bucketGet ((k0, v0) :: rest) k = bucketGet rest k := by
          show (if k0 = k then some v0 else bucketGet rest k) = bucketGet rest k
          exact if_neg (fun h : k0 = k => hk h.symm)
        rw [hcons]

theorem OpenHashTable.fuel_spec_oa (pk : ProbeKind) (fuel : Nat) :
    (∀ (t : OpenHashTable V) (k : Nat) (v : V), OpenInv pk t →
      ∀ t' ∈ OpenHashTable.setitemFuel pk fuel t k v, OpenSetSpec pk t t' k v) ∧
    (∀ t : OpenHashTable V, OpenInv pk t →
      ∀ t' ∈ OpenHashTable.resizeFuel pk fuel t, OpenResizeSpec pk t t') := by
  induction fuel with
  | zero =>
    constructor
    · intro t k v ht t' ht'
      have hns : t' ∈ t.setitemNoResize pk k v := ht'
      obtain ⟨S, -⟩ := OpenHashTable.setitemNoResize_spec_oa pk ht k v t' hns
      exact S
    · intro t ht t' ht'
      rw [Option.mem_def] at ht'
      injection ht' with ht'
      subst ht'
      exact ⟨ht, fun _ => rfl, rfl, Nat.le_refl _, rfl, rfl, rfl⟩
  | succ g ih =>
    have hres : ∀ t : OpenHashTable V, OpenInv pk t →
        ∀ t' ∈ OpenHashTable.resizeFuel pk (g+1) t, OpenResizeSpec pk t t' := by
      intro t ht t' ht'
      have hcap2 : 0 < t.capacity * t.growth_factor := by
        have := ht.cap_pos
        rw [ht.growth_eq]
        omega
      have hinit : OpenInv pk (OpenHashTable.init (t.capacity * t.growth_factor)
          t.mlf_num t.mlf_den : OpenHashTable V) :=
        OpenHashTable.openInv_init pk hcap2 t.mlf_num t.mlf_den
      have hrz : OpenHashTable.resizeFuel pk (g+1) t
          = OpenHashTable.insertListFuel pk g
              (some (OpenHashTable.init (t.capacity * t.growth_factor)
                t.mlf_num t.mlf_den)) t.items := rfl
      rw [hrz] at ht'
      obtain ⟨IL1, IL2, IL3, IL4, IL5, IL6, IL7⟩ :=
        OpenHashTable.insertListFuel_spec_oa pk g ih.1 t.items
          (OpenHashTable.init (t.capacity * t.growth_factor) t.mlf_num t.mlf_den)
          hinit (OpenHashTable.items_keys_nodup_oa ht)
          (fun kv _ => OpenHashTable.getitem_init_oa pk _ _ _ _) t' ht'
      refine ⟨IL1, ?_, ?_, ?_, IL4, IL5, by rw [IL6]; exact ht.growth_eq.symm⟩
      · intro k
        rw [IL3 k, OpenHashTable.getitem_init_oa,
          ← OpenHashTable.bucketGet_items_oa ht k]
        cases bucketGet t.items k with
        | none => rfl
        | some v => rfl
      · rw [IL2, ht.n_eq]
        have h0 : (OpenHashTable.init (t.capacity * t.growth_factor)
            t.mlf_num t.mlf_den : OpenHashTable V).num_elements = 0 := rfl
        omega
      · refine Nat.le_trans IL7 ?_
        show (0 : Nat) ≤ t.num_tombstones
        omega
    refine ⟨?_, hres⟩
    intro t k v ht t' ht'
    rw [Option.mem_def, OpenHashTable.setitemFuel_eq_oa] at ht'
    rcases hns : t.setitemNoResize pk k v with _ | t1
    · rw [hns] at ht'
      exact Option.noConfusion ht'
    · rw [hns] at ht'
      obtain ⟨S, -⟩ := OpenHashTable.setitemNoResize_spec_oa pk ht k v t1
        (by rw [hns]; rfl)
      simp only [Option.some_bind] at ht'
      by_cases htr : t1.trigger = true
      · rw [if_pos htr] at ht'
        exact OpenSetSpec.trans_resize_oa S (hres t1 S.inv t' ht')
      · rw [if_neg htr] at ht'
        injection ht' with ht'
        subst ht'
        exact S

/-! ## Lifting to the unified interface -/

theorem TableState.invT_mkT (var : Variant) {cap : Nat} (h : 0 < cap)
    (p q : Nat) : InvT (TableState.mkT var cap p q : TableState V) := by
  cases var with
  | chaining => exact ChainingHashTable.chainInv_init h p q
  | linearProbing => exact OpenHashTable.openInv_init .linear h p q
  | quadraticProbing => exact OpenHashTable.openInv_init .quadratic h p q

theorem TableState.getT_mkT (var : Variant) (cap p q k : Nat) :
    (TableState.mkT var cap p q : TableState V).getT k = none := by
  cases var with
  | chaining => exact ChainingHashTable.getitem_init cap p q k
  | linearProbing => exact OpenHashTable.getitem_init_oa .linear cap p q k
  | quadraticProbing => exact OpenHashTable.getitem_init_oa .quadratic cap p q k

theorem TableState.lenT_mkT (var : Variant) (cap p q : Nat) :
    (TableState.mkT var cap p q : TableState V).lenT = 0 := by
  cases var <;> rfl

theorem TableState.setT_spec (fuel : Nat) {s : TableState V} (h : InvT s)
    (k : Nat) (v : V) : ∀ s' ∈ s.setT fuel k v, SetSpecT s s' k v := by
  intro s' hs'
  rw [Option.mem_def] at hs'
  cases s with
  | chain t =>
    injection hs' with hs'
    subst hs'
    have S := (ChainingHashTable.fuel_spec fuel).1 t k v h
    exact ⟨S.inv, S.get_self, fun k' hk' => S.get_other k' hk', S.num⟩
  | oa pk t =>
    rcases hset : OpenHashTable.setitemFuel pk fuel t k v with _ | t1
    · rw [TableState.setT, hset] at hs'
      cases hs'
    · rw [TableState.setT, hset] at hs'
      injection hs' with hs'
      subst hs'
      have S := (OpenHashTable.fuel_spec_oa pk fuel).1 t k v h t1 (by rw [hset]; rfl)
      exact ⟨S.inv, S.get_self, fun k' hk' => S.get_other k' hk', S.num⟩

theorem TableState.delT_none_iff (s : TableState V) (k : Nat) :
    s.delT k = none ↔ s.getT k = none := by
  cases s with
  | chain t =>
    show (t.delitem k).map _ = none ↔ _
    rw [Option.map_eq_none']
    exact ChainingHashTable.delitem_none_iff t k
  | oa pk t =>
    show (t.delitem pk k).map _ = none ↔ _
    rw [Option.map_eq_none']
    exact OpenHashTable.delitem_none_iff_oa pk t k

theorem TableState.delT_spec {s : TableState V} (h : InvT s) (k : Nat) :
    ∀ s' ∈ s.delT k, DelSpecT s s' k := by
  intro s' hs'
  rw [Option.mem_def] at hs'
  cases s with
  | chain t =>
    rcases hdel : t.delitem k with _ | t1
    · rw [TableState.delT, hdel] at hs'
      cases hs'
    · rw [TableState.delT, hdel] at hs'
      injection hs' with hs'
      subst hs'
      have D := ChainingHashTable.delitem_spec h hdel
      exact ⟨D.inv, D.get_self, fun k' hk' => D.get_other k' hk', D.num, D.cap⟩
  | oa pk t =>
    rcases hdel : t.delitem pk k with _ | t1
    · rw [TableState.delT, hdel] at hs'
      cases hs'
    · rw [TableState.delT, hdel] at hs'
      injection hs' with hs'
      subst hs'
      have D := OpenHashTable.delitem_spec_oa pk h k t1 (by rw [hdel]; rfl)
      exact ⟨D.inv, D.get_self, fun k' hk' => D.get_other k' hk', D.num, D.cap⟩

theorem applyOp_spec (fuel : Nat) {s : TableState V} (h : InvT s) (op : Op V) :
    ∀ s' ∈ applyOp fuel s op, InvT s' := by
  intro s' hs'
  cases op with
  | set k v => exact (TableState.setT_spec fuel h k v s' hs').inv
  | get k =>
    rw [Option.mem_def] at hs'
    injection hs' with hs'
    subst hs'
    exact h
  | del k =>
    rw [Option.mem_def] at hs'
    injection hs' with hs'
    subst hs'
    rcases hdel : s.delT k with _ | s1
    · exact h
    · exact (TableState.delT_spec h k s1 (by rw [hdel]; rfl)).inv

theorem applyOp_get_untouched (fuel : Nat) {s : TableState V} (h : InvT s)
    {k : Nat} {op : Op V} (hop : op.touches k = false) :
    ∀ s' ∈ applyOp fuel s op, s'.getT k = s.getT k := by
  intro s' hs'
  cases op with
  | set k' v =>
    have hne : k' ≠ k := by simpa [Op.touches] using hop
    exact (TableState.setT_spec fuel h k' v s' hs').get_other k (Ne.symm hne)
  | get k' =>
    rw [Option.mem_def] at hs'
    injection hs' with hs'
    subst hs'
    rfl
  | del k' =>
    have hne : k' ≠ k := by simpa [Op.touches] using hop
    rw [Option.mem_def] at hs'
    injection hs' with hs'
    subst hs'
    rcases hdel : s.delT k' with _ | s1
    · rfl
    · exact (TableState.delT_spec h k' s1 (by rw [hdel]; rfl)).get_other k
        (Ne.symm hne)

theorem applyOps_get_untouched (fuel : Nat) {k : Nat} :
    ∀ (ops : List (Op V)) {s : TableState V}, InvT s →
      (∀ op ∈ ops, op.touches k = false) →
      ∀ s' ∈ applyOps fuel s ops, s'.getT k = s.getT k ∧ InvT s' := by
  intro ops
  induction ops with
  | nil =>
    intro s h _ s' hs'
    rw [Option.mem_def] at hs'
    injection hs' with hs'
    subst hs'
    exact ⟨rfl, h⟩
  | cons op rest ih =>
    intro s h hops s' hs'
    rw [Option.mem_def] at hs'
    unfold applyOps at hs'
    rcases hstep : applyOp fuel s op with _ | s1
    · rw [hstep] at hs'
      cases hs'
    · rw [hstep] at hs'
      have h1 : InvT s1 := applyOp_spec fuel h op s1 (by rw [hstep]; rfl)
      have hg1 : s1.getT k = s.getT k :=
        applyOp_get_untouched fuel h (hops op (List.mem_cons_self _ _)) s1
          (by rw [hstep]; rfl)
      obtain ⟨hg2, hinv2⟩ := ih h1 (fun o ho => hops o (List.mem_cons_of_mem _ ho))
        s' hs'
      exact ⟨by rw [hg2, hg1], hinv2⟩

/-! ## The frozen claims -/

/-- Claim C1: for every variant, every key `k` and value `v`, immediately
after `set(k, v)` the lookup `get(k)` returns `v`, and it keeps returning `v`
after any sequence of further operations that contains no `set(k, _)` and no
`delete(k)`. -/
theorem claim_C1 (fuel : Nat) (s : TableState V) (h : InvT s) (k : Nat) (v : V)
    (ops : List (Op V)) (hops : ∀ op ∈ ops, op.touches k = false) :
    ∀ s2 ∈ (s.setT fuel k v).bind (fun s1 => applyOps fuel s1 ops),
      s2.getT k = some v := by
  intro s2 hs2
  rw [Option.mem_def] at hs2
  obtain ⟨s1, hs1, hs2'⟩ := Option.bind_eq_some.mp hs2
  have S := TableState.setT_spec fuel h k v s1 hs1
  obtain ⟨hg, -⟩ := applyOps_get_untouched fuel ops S.inv hops s2 hs2'
  rw [hg, S.get_self]

theorem claim_C1_witness :
    ((((TableState.mkT Variant.linearProbing 4 4 5 : TableState Nat).setT 8 2 100).bind
        (fun s1 => applyOps 8 s1
          [Op.set 3 7, Op.set 6 8, Op.del 3, Op.get 0, Op.set 5 9])).getD
      (TableState.mkT Variant.chaining 1 1 1)).getT 2 = some 100 := by
  have h := claim_C1 8 (TableState.mkT Variant.linearProbing 4 4 5 : TableState Nat)
    (by decide) 2 100 [Op.set 3 7, Op.set 6 8, Op.del 3, Op.get 0, Op.set 5 9]
    (by decide)
  rcases hp : ((TableState.mkT Variant.linearProbing 4 4 5 : TableState Nat).setT 8 2 100).bind
      (fun s1 => applyOps 8 s1
        [Op.set 3 7, Op.set 6 8, Op.del 3, Op.get 0, Op.set 5 9]) with _ | s2
  · exact absurd hp (by decide)
  · exact h s2 (by rw [hp]; rfl)

theorem TableState.mem_itemsT_iff {s : TableState V} (h : InvT s) {k : Nat}
    {v : V} : (k, v) ∈ s.itemsT ↔ s.getT k = some v := by
  cases s with
  | chain t => exact ChainingHashTable.mem_items_iff h
  | oa pk t => exact OpenHashTable.mem_items_iff_oa h

theorem TableState.memT_iff {s : TableState V} (h : InvT s) (k : Nat) :
    s.memT k = true ↔ (s.getT k).isSome = true := by
  rw [TableState.memT, List.elem_iff, Option.isSome_iff_exists]
  constructor
  · intro hk
    obtain ⟨⟨k1, v1⟩, hmem, hfst⟩ := List.mem_map.mp hk
    cases hfst
    exact ⟨v1, (TableState.mem_itemsT_iff h).mp hmem⟩
  · rintro ⟨v, hv⟩
    exact List.mem_map.mpr ⟨(k, v), (TableState.mem_itemsT_iff h).mpr hv, rfl⟩

theorem TableState.keyCountT_le_one {s : TableState V} (h : InvT s) (k : Nat) :
    s.keyCountT k ≤ 1 := by
  have hnd : (s.itemsT.map Prod.fst).Nodup := by
    cases s with
    | chain t => exact ChainingHashTable.items_keys_nodup h
    | oa pk t => exact OpenHashTable.items_keys_nodup_oa h
  exact List.nodup_iff_count_le_one.mp hnd k

/-- Claim C2: for every variant and every key that is not currently stored in
the table (never inserted, or deleted since), `get(key)` yields the KeyError
failure (`none`) and `delete(key)` yields the KeyError failure (`none`),
leaving no successor state at all; absence is never reported via a default
value. -/
theorem claim_C2 (s : TableState V) (h : InvT s) (k : Nat)
    (habs : s.memT k = false) :
    s.getT k = none ∧ s.delT k = none := by
  have hg : s.getT k = none := by
    rcases hv : s.getT k with _ | v
    · rfl
    · have := (TableState.memT_iff h k).mpr (by rw [hv]; rfl)
      rw [habs] at this
      exact absurd this (by simp)
  exact ⟨hg, (TableState.delT_none_iff s k).mpr hg⟩

theorem claim_C2_witness :
    (TableState.mkT Variant.quadraticProbing 8 1 2 : TableState Nat).getT 5 = none ∧
      (TableState.mkT Variant.quadraticProbing 8 1 2 : TableState Nat).delT 5 = none :=
  claim_C2 (TableState.mkT Variant.quadraticProbing 8 1 2 : TableState Nat)
    (by decide) 5 (by decide)

theorem applyOps_live (fuel : Nat) :
    ∀ (ops : List (Op V)) (s : TableState V) (acc : Finset Nat), InvT s →
      s.lenT = acc.card → (∀ key, ((s.getT key).isSome = true ↔ key ∈ acc)) →
      ∀ s' ∈ applyOps fuel s ops,
        s'.lenT = (ops.foldl liveStep acc).card ∧ InvT s' ∧
          ∀ key, ((s'.getT key).isSome = true ↔ key ∈ ops.foldl liveStep acc) := by
  intro ops
  induction ops with
  | nil =>
    intro s acc hinv hlen hmem s' hs'
    rw [Option.mem_def] at hs'
    simp only [applyOps] at hs'
    injection hs' with hs'
    subst hs'
    exact ⟨hlen, hinv, hmem⟩
  | cons op rest ih =>
    intro s acc hinv hlen hmem s' hs'
    rw [Option.mem_def] at hs'
    simp only [applyOps] at hs'
    rw [List.foldl_cons]
    cases op with
    | get k =>
      have hs1 : applyOps fuel s rest = some s' := hs'
      exact ih s acc hinv hlen hmem s' hs1
    | set k v =>
      rcases hop : s.setT fuel k v with _ | s1
      · rw [applyOp, hop] at hs'
        exact absurd hs' (by simp)
      · rw [applyOp, hop] at hs'
        simp only [] at hs'
        have S := TableState.setT_spec fuel hinv k v s1 hop
        refine ih s1 (insert k acc) S.inv ?_ ?_ s' hs'
        · by_cases hk : k ∈ acc
          · have hks : (s.getT k).isSome = true := (hmem k).mpr hk
            rw [S.len, if_pos hks, hlen, Finset.insert_eq_self.mpr hk]
          · have hks : ¬((s.getT k).isSome = true) :=
              fun hh => hk ((hmem k).mp hh)
            rw [S.len, if_neg hks, hlen, Finset.card_insert_of_not_mem hk]
        · intro key
          by_cases hkey : key = k
          · subst hkey
            simp [S.get_self, Finset.mem_insert_self]
          · rw [S.get_other key hkey, Finset.mem_insert]
            simp [hkey, hmem key]
    | del k =>
      rcases hdel : s.delT k with _ | s2
      · rw [applyOp, hdel] at hs'
        simp only [Option.getD_none] at hs'
        have hgnone : s.getT k = none := (TableState.delT_none_iff s k).mp hdel
        have hnk : k ∉ acc := by
          intro hk
          have := (hmem k).mpr hk
          rw [hgnone] at this
          exact absurd this (by simp)
        have hacc : liveStep acc (Op.del k : Op V) = acc := by
          show acc.erase k = acc
          exact Finset.erase_eq_of_not_mem hnk
        rw [hacc]
        exact ih s acc hinv hlen hmem s' hs'
      · rw [applyOp, hdel] at hs'
        simp only [Option.getD_some] at hs'
        have D := TableState.delT_spec hinv k s2 (by rw [hdel]; rfl)
        have hkne : s.getT k ≠ none := by
          intro hn
          rw [(TableState.delT_none_iff s k).mpr hn] at hdel
          cases hdel
        have hks : k ∈ acc := (hmem k).mp (Option.ne_none_iff_isSome.mp hkne)
        have hpos : 0 < acc.card := Finset.card_pos.mpr ⟨k, hks⟩
        refine ih s2 (acc.erase k) D.inv ?_ ?_ s' hs'
        · have hcard := Finset.card_erase_of_mem hks
          have hln := D.len
          omega
        · intro key
          by_cases hkey : key = k
          · subst hkey
            simp [D.get_self, Finset.mem_erase]
          · rw [D.get_other key hkey, Finset.mem_erase]
            simp [hkey, hmem key]

/-- Claim C3: for every variant and every finite sequence of
insert/lookup/delete operations applied to a freshly constructed map,
`len()` afterwards equals the number of distinct keys that have been inserted
and not subsequently deleted. -/
theorem claim_C3 (fuel : Nat) (var : Variant) (cap p q : Nat) (hcap : 0 < cap)
    (ops : List (Op V)) :
    ∀ s' ∈ applyOps fuel (TableState.mkT var cap p q : TableState V) ops,
      s'.lenT = (liveKeys ops).card := by
  intro s' hs'
  have h := applyOps_live fuel ops (TableState.mkT var cap p q : TableState V) ∅
    (TableState.invT_mkT var hcap p q)
    (by rw [TableState.lenT_mkT]; simp)
    (fun key => by rw [TableState.getT_mkT]; simp)
    s' hs'
  exact h.1

theorem claim_C3_witness :
    ((applyOps 8 (TableState.mkT Variant.chaining 2 3 4 : TableState Nat)
        [Op.set 1 10, Op.set 5 20, Op.set 1 30, Op.del 5, Op.get 9, Op.set 2 40]).getD
      (TableState.mkT Variant.chaining 1 1 1)).lenT
      = (liveKeys ([Op.set 1 10, Op.set 5 20, Op.set 1 30, Op.del 5, Op.get 9,
          Op.set 2 40] : List (Op Nat))).card := by
  have h := claim_C3 8 Variant.chaining 2 3 4 (by decide)
    ([Op.set 1 10, Op.set 5 20, Op.set 1 30, Op.del 5, Op.get 9,
      Op.set 2 40] : List (Op Nat))
  rcases hp : applyOps 8 (TableState.mkT Variant.chaining 2 3 4 : TableState Nat)
      [Op.set 1 10, Op.set 5 20, Op.set 1 30, Op.del 5, Op.get 9, Op.set 2 40]
    with _ | s'
  · exact absurd hp (by decide)
  · exact h s' (by rw [hp]; rfl)

theorem applyOps_sets_same_key (fuel : Nat) (k : Nat) :
    ∀ (vs : List V) (s : TableState V), InvT s → (s.getT k).isSome = true →
      ∀ s' ∈ applyOps fuel s (vs.map (Op.set k)),
        s'.lenT = s.lenT ∧ InvT s' ∧ (s'.getT k).isSome = true := by
  intro vs
  induction vs with
  | nil =>
    intro s hinv hk s' hs'
    rw [Option.mem_def] at hs'
    simp only [List.map_nil, applyOps] at hs'
    injection hs' with h
    subst h
    exact ⟨rfl, hinv, hk⟩
  | cons v rest ih =>
    intro s hinv hk s' hs'
    rw [Option.mem_def] at hs'
    simp only [List.map_cons, applyOps] at hs'
    rcases hop : s.setT fuel k v with _ | s1
    · rw [applyOp, hop] at hs'
      exact absurd hs' (by simp)
    · rw [applyOp, hop] at hs'
      simp only [] at hs'
      have S := TableState.setT_spec fuel hinv k v s1 hop
      have hlen1 : s1.lenT = s.lenT := by rw [S.len, if_pos hk]
      have h1 := ih s1 S.inv (by rw [S.get_self]; rfl) s' hs'
      exact ⟨by rw [h1.1, hlen1], h1.2.1, h1.2.2⟩

/-- Claim C7: for every variant and every key `k`, a first `set(k, v₀)`
followed by any further list of `set(k, _)` operations (so `n ≥ 1` sets in
total; any prefix of the list is itself an instance, covering "at every
moment") leaves `len()` at its value right after the first set — `len+1` of
the original table if `k` was absent, unchanged otherwise — and the resulting
table stores at most one entry/occupied slot per distinct key. -/
theorem claim_C7 (fuel : Nat) (s : TableState V) (h : InvT s) (k : Nat)
    (v₀ : V) (vs : List V) :
    ∀ s2 ∈ (s.setT fuel k v₀).bind
        (fun s1 => applyOps fuel s1 (vs.map (Op.set k))),
      s2.lenT = (if (s.getT k).isSome then s.lenT else s.lenT + 1) ∧
        ∀ key, s2.keyCountT key ≤ 1 := by
  intro s2 hs2
  rw [Option.mem_def] at hs2
  obtain ⟨s1, hs1, hs2'⟩ := Option.bind_eq_some.mp hs2
  have S := TableState.setT_spec fuel h k v₀ s1 hs1
  have h1 := applyOps_sets_same_key fuel k vs s1 S.inv
    (by rw [S.get_self]; rfl) s2 hs2'
  exact ⟨by rw [h1.1, S.len], fun key => TableState.keyCountT_le_one h1.2.1 key⟩

theorem claim_C7_witness :
    ((((TableState.mkT Variant.linearProbing 4 1 2 : TableState Nat).setT 6 3 10).bind
        (fun s1 => applyOps 6 s1 (([20, 30, 40] : List Nat).map (Op.set 3)))).getD
      (TableState.mkT Variant.chaining 1 1 1)).lenT = 1 ∧
    ((((TableState.mkT Variant.linearProbing 4 1 2 : TableState Nat).setT 6 3 10).bind
        (fun s1 => applyOps 6 s1 (([20, 30, 40] : List Nat).map (Op.set 3)))).getD
      (TableState.mkT Variant.chaining 1 1 1)).keyCountT 3 ≤ 1 := by
  have h := claim_C7 6 (TableState.mkT Variant.linearProbing 4 1 2 : TableState Nat)
    (by decide) 3 10 [20, 30, 40]
  rcases hp : ((TableState.mkT Variant.linearProbing 4 1 2 : TableState Nat).setT 6 3 10).bind
      (fun s1 => applyOps 6 s1 (([20, 30, 40] : List Nat).map (Op.set 3))) with _ | s2
  · exact absurd hp (by decide)
  · have h2 := h s2 (by rw [hp]; rfl)
    refine ⟨?_, h2.2 3⟩
    rw [Option.getD_some, h2.1]
    decide

theorem ChainingHashTable.delitem_capacity {t t1 : ChainingHashTable V}
    {k : Nat} (h : t.delitem k = some t1) : t1.capacity = t.capacity := by
  rw [ChainingHashTable.delitem] at h
  rcases hb : t.bucketAt (k % t.capacity) with _ | l
  · rw [hb] at h
    simp only [] at h
    cases h
  · rw [hb] at h
    simp only [] at h
    by_cases hg : (bucketGet l k).isSome
    · rw [if_pos hg] at h
      injection h with h
      subst h
      rfl
    · rw [if_neg hg] at h
      cases h

theorem OpenHashTable.delitem_capacity_oa {pk : ProbeKind} {t t1 : OpenHashTable V}
    {k : Nat} (h : t.delitem pk k = some t1) : t1.capacity = t.capacity := by
  rw [OpenHashTable.delitem] at h
  rcases hf : pathFind (t.slotsOf pk k) k 0 t.capacity with _ | iv
  · rw [hf] at h
    simp only [] at h
    cases h
  · obtain ⟨i, v⟩ := iv
    rw [hf] at h
    simp only [] at h
    injection h with h
    subst h
    rfl

/-- Claim C5: for every variant, `set` is exactly the insertion phase followed
by the load-factor check on the completed insertion — a resize runs if and only
if the executable trigger on the post-insertion state is true — and the
trigger is true exactly when the load factor strictly exceeds
`maximum_load_factor` (so the post-insertion state may momentarily exceed the
threshold before the check fires); a lookup returns the state unchanged and a
delete never changes the capacity, so neither ever resizes. -/
theorem claim_C5 (fuel : Nat) (s : TableState V) (k : Nat) (v : V) :
    s.setT fuel k v = (s.insertPhaseT k v).bind
        (fun s1 => if s1.triggerT = true then s1.resizeT fuel else some s1) ∧
    (∀ s1 : TableState V, 0 < s1.capT → 0 < s1.mlfT.2 →
      (s1.triggerT = true ↔ s1.loadT > mlfQ s1.mlfT.1 s1.mlfT.2)) ∧
    applyOp fuel s (Op.get k) = some s ∧
    (∀ s' ∈ s.delT k, s'.capT = s.capT) := by
  refine ⟨?_, ?_, rfl, ?_⟩
  · cases s with
    | chain t =>
      show some (TableState.chain (ChainingHashTable.setitemFuel fuel t k v)) = _
      rw [ChainingHashTable.setitemFuel_eq]
      show _ = (some (TableState.chain (t.setitemNoResize k v))).bind _
      rw [Option.bind]
      by_cases hc : (t.setitemNoResize k v).trigger
      · simp only [hc, TableState.triggerT, TableState.resizeT, if_true]
      · simp only [TableState.triggerT, hc, Bool.false_eq_true, if_false]
    | oa pk t =>
      show (OpenHashTable.setitemFuel pk fuel t k v).map (TableState.oa pk) = _
      rw [OpenHashTable.setitemFuel_eq_oa]
      show _ = ((t.setitemNoResize pk k v).map (TableState.oa pk)).bind _
      cases hw : t.setitemNoResize pk k v with
      | none => simp
      | some t' =>
        by_cases hc : t'.trigger = true <;>
          simp [hc, TableState.triggerT, TableState.resizeT]
  · intro s1 hcap hden
    cases s1 with
    | chain t =>
      exact loadTrigger_iff t.num_elements t.num_tombstones t.capacity
        t.mlf_num t.mlf_den hcap hden
    | oa pk t =>
      exact loadTrigger_iff t.num_elements t.num_tombstones t.capacity
        t.mlf_num t.mlf_den hcap hden
  · intro s' hs'
    rw [Option.mem_def] at hs'
    cases s with
    | chain t =>
      obtain ⟨t1, ht1, rfl⟩ := Option.map_eq_some'.mp hs'
      exact ChainingHashTable.delitem_capacity ht1
    | oa pk t =>
      obtain ⟨t1, ht1, rfl⟩ := Option.map_eq_some'.mp hs'
      exact OpenHashTable.delitem_capacity_oa ht1

theorem claim_C5_witness :
    ((TableState.mkT Variant.chaining 2 1 2 : TableState Nat).setT 5 7 9
        = ((TableState.mkT Variant.chaining 2 1 2 : TableState Nat).insertPhaseT 7 9).bind
          (fun s1 => if s1.triggerT = true then s1.resizeT 5 else some s1)) ∧
      ((TableState.mkT Variant.chaining 2 1 2 : TableState Nat).triggerT = true ↔
        (TableState.mkT Variant.chaining 2 1 2 : TableState Nat).loadT >
          mlfQ (TableState.mkT Variant.chaining 2 1 2 : TableState Nat).mlfT.1
            (TableState.mkT Variant.chaining 2 1 2 : TableState Nat).mlfT.2) := by
  have h := claim_C5 5 (TableState.mkT Variant.chaining 2 1 2 : TableState Nat) 7 9
  exact ⟨h.1, h.2.1 (TableState.mkT Variant.chaining 2 1 2 : TableState Nat)
    (by decide) (by decide)⟩

/-- Claim C6: for every reachable table state (any state satisfying the
invariant established at construction and preserved by every operation), the
load factor equals `(element_count + tombstone_count) / capacity`; for the
chaining variant the tombstone count is moreover always `0`, so the load
factor equals `element_count / capacity`. -/
theorem claim_C6 (s : TableState V) (h : InvT s) :
    s.loadT = ((s.lenT + s.tombsT : Nat) : Rat) / (s.capT : Rat) ∧
      (s.isChaining = true →
        s.tombsT = 0 ∧ s.loadT = (s.lenT : Rat) / (s.capT : Rat)) := by
  constructor
  · cases s with
    | chain t => rfl
    | oa pk t => rfl
  · intro hch
    cases s with
    | chain t =>
      have hc : ChainInv t := h
      refine ⟨hc.tombs_eq, ?_⟩
      show loadFactor t.num_elements t.num_tombstones t.capacity = _
      rw [loadFactor, hc.tombs_eq]
      norm_num
      rfl
    | oa pk t =>
      simp [TableState.isChaining] at hch

theorem claim_C6_witness :
    (TableState.oa ProbeKind.linear
        ⟨4, [Slot.occ 4 1, Slot.tomb, Slot.blank, Slot.blank], 1, 1, 1, 2, 2⟩
      : TableState Nat).loadT
      = (((TableState.oa ProbeKind.linear
            ⟨4, [Slot.occ 4 1, Slot.tomb, Slot.blank, Slot.blank], 1, 1, 1, 2, 2⟩
          : TableState Nat).lenT
          + (TableState.oa ProbeKind.linear
              ⟨4, [Slot.occ 4 1, Slot.tomb, Slot.blank, Slot.blank], 1, 1, 1, 2, 2⟩
            : TableState Nat).tombsT : Nat) : Rat)
        / ((TableState.oa ProbeKind.linear
            ⟨4, [Slot.occ 4 1, Slot.tomb, Slot.blank, Slot.blank], 1, 1, 1, 2, 2⟩
          : TableState Nat).capT : Rat) :=
  (claim_C6 (TableState.oa ProbeKind.linear
      ⟨4, [Slot.occ 4 1, Slot.tomb, Slot.blank, Slot.blank], 1, 1, 1, 2, 2⟩
    : TableState Nat) (by decide)).1

theorem TableState.capT_pos {s : TableState V} (h : InvT s) : 0 < s.capT := by
  cases s with
  | chain t =>
    have hc : ChainInv t := h
    exact hc.cap_pos
  | oa pk t =>
    have hc : OpenInv pk t := h
    exact hc.cap_pos

/-- Claim C10: construction validates nothing — a table is built for any
initial capacity, including `0`, and then the capacity used as the load-factor
divisor and the home-index modulus is `0`; but every table built with a
positive capacity satisfies the invariant, the invariant forces a positive
capacity (so the divisor/modulus is never zero), and every operation preserves
it, so all operations on such tables keep the divisor nonzero. -/
theorem claim_C10 (fuel : Nat) :
    (∀ (var : Variant) (p q : Nat),
      (TableState.mkT var 0 p q : TableState V).capT = 0) ∧
    (∀ (var : Variant) (cap p q : Nat), 0 < cap →
      InvT (TableState.mkT var cap p q : TableState V)) ∧
    (∀ s : TableState V, InvT s → 0 < s.capT) ∧
    (∀ (s : TableState V) (op : Op V), InvT s →
      ∀ s' ∈ applyOp fuel s op, InvT s' ∧ 0 < s'.capT) := by
  refine ⟨?_, ?_, ?_, ?_⟩
  · intro var p q
    cases var <;> rfl
  · intro var cap p q hcap
    exact TableState.invT_mkT var hcap p q
  · intro s h
    exact TableState.capT_pos h
  · intro s op h s' hs'
    have h' := applyOp_spec fuel h op s' hs'
    exact ⟨h', TableState.capT_pos h'⟩

theorem claim_C10_witness :
    (TableState.mkT Variant.chaining 0 1 2 : TableState Nat).capT = 0 ∧
      InvT (TableState.mkT Variant.quadraticProbing 3 1 2 : TableState Nat) ∧
      0 < (TableState.mkT Variant.quadraticProbing 3 1 2 : TableState Nat).capT := by
  have h := @claim_C10 Nat 4
  exact ⟨h.1 Variant.chaining 1 2,
    h.2.1 Variant.quadraticProbing 3 1 2 (by decide),
    h.2.2.1 (TableState.mkT Variant.quadraticProbing 3 1 2 : TableState Nat)
      (h.2.1 Variant.quadraticProbing 3 1 2 (by decide))⟩

theorem filter_ne_eq_self_of_not_mem {l : List (Nat × V)} {k : Nat}
    (hk : k ∉ l.map Prod.fst) :
    l.filter (fun kv => decide (kv.1 ≠ k)) = l := by
  rw [List.filter_eq_self]
  intro kv hkv
  simp only [decide_eq_true_eq]
  intro he
  exact hk (List.mem_map.mpr ⟨kv, hkv, he⟩)

theorem bucketDel_eq_filter {l : List (Nat × V)} {k : Nat}
    (hn : (l.map Prod.fst).Nodup) :
    bucketDel l k = l.filter (fun kv => decide (kv.1 ≠ k)) := by
  induction l with
  | nil => rfl
  | cons kv rest ih =>
    obtain ⟨k0, v0⟩ := kv
    rw [List.map_cons, List.nodup_cons] at hn
    by_cases h0 : k0 = k
    · subst h0
      rw [show bucketDel ((k0, v0) :: rest) k0 = rest by simp [bucketDel]]
      rw [List.filter_cons]
      rw [show (decide ((k0, v0).1 ≠ k0)) = false by simp]
      simp only [Bool.false_eq_true, if_false]
      exact (filter_ne_eq_self_of_not_mem hn.1).symm
    · rw [show bucketDel ((k0, v0) :: rest) k = (k0, v0) :: bucketDel rest k by
        simp [bucketDel, h0]]
      rw [List.filter_cons]
      rw [show (decide ((k0, v0).1 ≠ k)) = true by simp [h0]]
      simp only [if_true]
      rw [ih hn.2]

/-- Claim C8: for the chaining variant, a successful `delete(key)` removes
exactly the entries matching `key` from the key's home bucket (by key
uniqueness, the single matching entry), decrements `element_count` by one,
leaves every other bucket untouched, resets the home bucket to the `BLANK`
marker when the removal empties it, and afterwards `get(key)` fails while
every other key's binding is unchanged; `delete` of an absent key fails with
`KeyError` (`none`), returning no changed state at all. -/
theorem claim_C8 {t : ChainingHashTable V} (ht : ChainInv t) (k : Nat) :
    (t.delitem k = none ↔ t.getitem k = none) ∧
    ∀ t' ∈ t.delitem k,
      t'.num_elements + 1 = t.num_elements ∧
      t'.capacity = t.capacity ∧
      t'.bucketListAt (k % t.capacity)
        = (t.bucketListAt (k % t.capacity)).filter (fun kv => decide (kv.1 ≠ k)) ∧
      (∀ j, j ≠ k % t.capacity → t'.bucketAt j = t.bucketAt j) ∧
      (((t.bucketListAt (k % t.capacity)).filter
          (fun kv => decide (kv.1 ≠ k))).isEmpty = true →
        t'.bucketAt (k % t.capacity) = none) ∧
      t'.getitem k = none ∧
      (∀ k', k' ≠ k → t'.getitem k' = t.getitem k') := by
  refine ⟨ChainingHashTable.delitem_none_iff t k, ?_⟩
  intro t' ht'
  rw [Option.mem_def] at ht'
  have D := ChainingHashTable.delitem_spec ht ht'
  have hi : k % t.capacity < t.capacity := Nat.mod_lt _ ht.cap_pos
  have hib : k % t.capacity < t.buckets.length := ht.len_eq ▸ hi
  have hnd := ht.nodup_keys (k % t.capacity) hi
  simp only [ChainingHashTable.delitem] at ht'
  rcases hb : t.bucketAt (k % t.capacity) with _ | l
  · rw [hb] at ht'
    simp only [] at ht'
    cases ht'
  · rw [hb] at ht'
    simp only [] at ht'
    by_cases hg : (bucketGet l k).isSome
    · rw [if_pos hg] at ht'
      injection ht' with ht'
      have hl : t.bucketListAt (k % t.capacity) = l := by
        rw [ChainingHashTable.bucketListAt, hb]
        rfl
      have hfilter : bucketDel l k = l.filter (fun kv => decide (kv.1 ≠ k)) :=
        bucketDel_eq_filter (hl ▸ hnd)
      have hbuckets : t'.buckets = t.buckets.set (k % t.capacity)
          (if (bucketDel l k).isEmpty then none
           else some (bucketDel l k)) := by
        rw [← ht']
      have hhome : t'.bucketAt (k % t.capacity)
          = (if (bucketDel l k).isEmpty then none
             else some (bucketDel l k)) := by
        rw [ChainingHashTable.bucketAt, hbuckets]
        exact listGetD_set_self t.buckets hib _ _
      refine ⟨D.num, D.cap, ?_, ?_, ?_, D.get_self, D.get_other⟩
      · rw [ChainingHashTable.bucketListAt, hhome, hl, ← hfilter]
        by_cases he : (bucketDel l k).isEmpty
        · rw [if_pos he, Option.getD_none]
          exact (List.isEmpty_iff.mp he).symm
        · rw [if_neg he, Option.getD_some]
      · intro j hj
        rw [ChainingHashTable.bucketAt, hbuckets,
          listGetD_set_ne t.buckets (Ne.symm hj) _ _]
        rfl
      · intro he
        rw [hl, ← hfilter] at he
        rw [hhome, if_pos he]
    · rw [if_neg hg] at ht'
      cases ht'

theorem claim_C8_witness :
    ((⟨2, [some [(0, 5), (2, 6)], none], 2, 0, 4, 5, 2⟩
        : ChainingHashTable Nat).delitem 0 = none ↔
      (⟨2, [some [(0, 5), (2, 6)], none], 2, 0, 4, 5, 2⟩
        : ChainingHashTable Nat).getitem 0 = none) ∧
    (((⟨2, [some [(0, 5), (2, 6)], none], 2, 0, 4, 5, 2⟩
        : ChainingHashTable Nat).delitem 0).getD
      (⟨2, [some [(0, 5), (2, 6)], none], 2, 0, 4, 5, 2⟩
        : ChainingHashTable Nat)).getitem 0 = none := by
  have h := claim_C8 (show ChainInv
    (⟨2, [some [(0, 5), (2, 6)], none], 2, 0, 4, 5, 2⟩
      : ChainingHashTable Nat) by decide) 0
  refine ⟨h.1, ?_⟩
  rcases hd : (⟨2, [some [(0, 5), (2, 6)], none], 2, 0, 4, 5, 2⟩
      : ChainingHashTable Nat).delitem 0 with _ | t'
  · exact absurd hd (by decide)
  · have h2 := h.2 t' (by rw [hd]; rfl)
    exact h2.2.2.2.2.2.1

theorem pathScanIns_ne_full {slots : Nat → Slot V} {k : Nat} :
    ∀ {n s i : Nat} {v : V} (ft : Option Nat), slots i = .occ k v → s ≤ i →
      i < s + n → (∀ j, s ≤ j → j < i → passable k (slots j)) →
      pathScanIns slots k s ft n ≠ .full := by
  intro n
  induction n with
  | zero =>
    intro s i v ft _ _ h3 _
    omega
  | succ m ih =>
    intro s i v ft h1 h2 h3 h4
    unfold pathScanIns
    rcases he : slots s with _ | _ | ⟨k', v'⟩
    · simp only []
      exact fun hcon => InsLoc.noConfusion hcon
    · simp only []
      have hsi : s ≠ i := by
        intro hh
        rw [hh, h1] at he
        cases he
      exact ih _ h1 (by omega) (by omega) (fun j hj1 hj2 => h4 j (by omega) hj2)
    · simp only []
      by_cases hk : k' = k
      · rw [if_pos hk]
        exact fun hcon => InsLoc.noConfusion hcon
      · rw [if_neg hk]
        have hsi : s ≠ i := by
          intro hh
          rw [hh, h1] at he
          injection he with e1 e2
          exact hk e1.symm
        exact ih ft h1 (by omega) (by omega) (fun j hj1 hj2 => h4 j (by omega) hj2)

/-- Claim C9: for both open-addressing variants, when update or delete probes
for a key whose occupied slot lies at array position `p` (reachable along its
probe sequence, possibly past tombstones), the scan continues past every
tombstone and lands exactly on `p`: `set(k, v)` overwrites position `p` in
place (no duplicate entry at any earlier tombstone position and no other
change), and `delete(k)` turns exactly position `p` into a tombstone. -/
theorem claim_C9 (pk : ProbeKind) {t : OpenHashTable V} (ht : OpenInv pk t)
    {p k : Nat} {v₀ : V} (hp : p < t.buckets.length)
    (hocc : t.buckets.get ⟨p, hp⟩ = .occ k v₀) (v : V) :
    t.setitemNoResize pk k v
        = some { t with buckets := t.buckets.set p (.occ k v) } ∧
      t.delitem pk k
        = some { t with
                 buckets := t.buckets.set p .tomb
                 num_elements := t.num_elements - 1
                 num_tombstones := t.num_tombstones + 1 } := by
  have hcap : 0 < t.capacity := ht.cap_pos
  have hlen := ht.len_eq
  have hslot : t.slotAt p = .occ k v₀ := by
    rw [OpenHashTable.slotAt_eq_get hp, hocc]
  obtain ⟨i, hi, hq, hpass⟩ := ht.probe_ok p (hlen ▸ hp) k (by rw [hslot]; rfl)
  have hsi : t.slotsOf pk k i = .occ k v₀ := by
    show t.slotAt (probeIdx pk t.capacity (k % t.capacity) i) = _
    rw [hq, hslot]
  have hcontra : ∀ b, t.slotsOf pk k b = Slot.blank →
      (∀ j, j < b → passable k (t.slotsOf pk k j)) → False := by
    intro b hb hpb
    rcases Nat.lt_trichotomy b i with hlt | heq | hgt
    · have hpb' := hpass b hlt
      rw [hb] at hpb'
      exact not_passable_blank k hpb'
    · rw [heq, hsi] at hb
      cases hb
    · have hpi := hpb i hgt
      exact hpi.2 (by rw [hsi]; rfl)
  constructor
  · have S : InsLocSpec (t.slotsOf pk k) k 0 t.capacity
        (pathScanIns (t.slotsOf pk k) k 0 none t.capacity) :=
      pathScanIns_spec 0 none (fun j hj => absurd hj (Nat.not_lt_zero j))
        (fun j hj => absurd hj (Nat.not_lt_zero j))
    rcases hscan : pathScanIns (t.slotsOf pk k) k 0 none t.capacity
      with i' | ⟨p', wt⟩ | _
    · rw [hscan] at S
      obtain ⟨h1, h2, ⟨v₀', hocc'⟩, hpassall⟩ := S
      have hq'lt : probeIdx pk t.capacity (k % t.capacity) i' < t.buckets.length :=
        hlen ▸ probeIdx_lt pk hcap _ i'
      have hget' : t.buckets.get ⟨probeIdx pk t.capacity (k % t.capacity) i', hq'lt⟩
          = .occ k v₀' := by
        rw [← OpenHashTable.slotAt_eq_get hq'lt]
        exact hocc'
      have hq'p : probeIdx pk t.capacity (k % t.capacity) i' = p :=
        OpenHashTable.key_unique ht hq'lt hp hget' hocc
      rw [OpenHashTable.setitemNoResize, hscan]
      simp only []
      rw [hq'p]
    · exfalso
      rw [hscan] at S
      cases wt with
      | false =>
        obtain ⟨hs1, hs2, hs3, hs4⟩ := S
        refine hcontra p' hs3 (fun j hj => ?_)
        obtain ⟨k', v', hj1, hj2⟩ := hs4 j hj
        rw [hj1]
        exact passable_occ v' hj2
      | true =>
        obtain ⟨hs1, hs2, hs3, b, hb1, hb2, hb3⟩ := S
        exact hcontra b hb2 hb3
    · exact absurd hscan
        (pathScanIns_ne_full none hsi (Nat.zero_le i) (by omega)
          (fun j hj1 hj2 => hpass j hj2))
  · have hfind : pathFind (t.slotsOf pk k) k 0 t.capacity = some (i, v₀) :=
      pathFind_of_firstHit hsi (Nat.zero_le i) (by omega)
        (fun j hj1 hj2 => hpass j hj2)
    rw [OpenHashTable.delitem, hfind]
    simp only []
    rw [hq]

theorem claim_C9_witness :
    (⟨8, [Slot.tomb, Slot.occ 8 5, Slot.blank, Slot.blank, Slot.blank,
        Slot.blank, Slot.blank, Slot.blank], 1, 1, 1, 2, 2⟩
      : OpenHashTable Nat).setitemNoResize ProbeKind.linear 8 7
      = some (⟨8, [Slot.tomb, Slot.occ 8 7, Slot.blank, Slot.blank, Slot.blank,
          Slot.blank, Slot.blank, Slot.blank], 1, 1, 1, 2, 2⟩
        : OpenHashTable Nat) ∧
    (⟨8, [Slot.tomb, Slot.occ 8 5, Slot.blank, Slot.blank, Slot.blank,
        Slot.blank, Slot.blank, Slot.blank], 1, 1, 1, 2, 2⟩
      : OpenHashTable Nat).delitem ProbeKind.linear 8
      = some (⟨8, [Slot.tomb, Slot.tomb, Slot.blank, Slot.blank, Slot.blank,
          Slot.blank, Slot.blank, Slot.blank], 0, 2, 1, 2, 2⟩
        : OpenHashTable Nat) := by
  have h := claim_C9 ProbeKind.linear
    (show OpenInv ProbeKind.linear
      (⟨8, [Slot.tomb, Slot.occ 8 5, Slot.blank, Slot.blank, Slot.blank,
          Slot.blank, Slot.blank, Slot.blank], 1, 1, 1, 2, 2⟩
        : OpenHashTable Nat) by decide)
    (show 1 < (⟨8, [Slot.tomb, Slot.occ 8 5, Slot.blank, Slot.blank, Slot.blank,
          Slot.blank, Slot.blank, Slot.blank], 1, 1, 1, 2, 2⟩
        : OpenHashTable Nat).buckets.length by decide)
    (show (⟨8, [Slot.tomb, Slot.occ 8 5, Slot.blank, Slot.blank, Slot.blank,
          Slot.blank, Slot.blank, Slot.blank], 1, 1, 1, 2, 2⟩
        : OpenHashTable Nat).buckets.get
        ⟨1, show 1 < (⟨8, [Slot.tomb, Slot.occ 8 5, Slot.blank, Slot.blank,
            Slot.blank, Slot.blank, Slot.blank, Slot.blank], 1, 1, 1, 2, 2⟩
          : OpenHashTable Nat).buckets.length by decide⟩
        = Slot.occ 8 5 from rfl) 7
  exact h

theorem ChainingHashTable.insertList_noTrigger (g : Nat) :
    ∀ (l : List (Nat × V)) (t0 : ChainingHashTable V), ChainInv t0 →
      (∀ kv ∈ l, t0.getitem kv.1 = none) →
      (List.map Prod.fst l).Nodup →
      t0.mlf_den * (t0.num_elements + l.length) ≤ t0.mlf_num * t0.capacity →
      (ChainingHashTable.insertListFuel g t0 l).capacity = t0.capacity := by
  intro l
  induction l with
  | nil =>
    intro t0 _ _ _ _
    rfl
  | cons kv rest ih =>
    obtain ⟨k0, v0⟩ := kv
    intro t0 ht habs hnd hbound
    rw [List.length_cons] at hbound
    simp only [List.map_cons, List.nodup_cons] at hnd
    have habs0 : t0.getitem k0 = none := habs (k0, v0) (List.mem_cons_self _ _)
    have S := ChainingHashTable.setitemNoResize_spec ht k0 v0
    have hnum : (t0.setitemNoResize k0 v0).num_elements
        = t0.num_elements + 1 := by
      rw [S.num, habs0]
      rfl
    have htombs : (t0.setitemNoResize k0 v0).num_tombstones = 0 := ht.tombs_eq
    have htrig : (t0.setitemNoResize k0 v0).trigger = false := by
      rw [ChainingHashTable.trigger, loadTrigger]
      apply decide_eq_false
      intro hlt
      have e3 : (t0.setitemNoResize k0 v0).mlf_num = t0.mlf_num := rfl
      have e4 : (t0.setitemNoResize k0 v0).mlf_den = t0.mlf_den := rfl
      have e5 : (t0.setitemNoResize k0 v0).capacity = t0.capacity := rfl
      rw [hnum, htombs, e3, e4, e5] at hlt
      have hmono : t0.mlf_den * (t0.num_elements + 1 + 0)
          ≤ t0.mlf_den * (t0.num_elements + (rest.length + 1)) :=
        Nat.mul_le_mul_left _ (by omega)
      omega
    have hstep : ChainingHashTable.setitemFuel g t0 k0 v0
        = t0.setitemNoResize k0 v0 := by
      rw [ChainingHashTable.setitemFuel_eq]
      show (if (t0.setitemNoResize k0 v0).trigger then _ else _) = _
      rw [htrig]
      simp only [Bool.false_eq_true, if_false]
    have habs1 : ∀ kv ∈ rest, (t0.setitemNoResize k0 v0).getitem kv.1 = none := by
      intro kv hkv
      have hne : kv.1 ≠ k0 := by
        intro he
        exact hnd.1 (he ▸ List.mem_map_of_mem Prod.fst hkv)
      rw [S.get_other kv.1 hne]
      exact habs kv (List.mem_cons_of_mem _ hkv)
    have hbound1 : (t0.setitemNoResize k0 v0).mlf_den
          * ((t0.setitemNoResize k0 v0).num_elements + rest.length)
        ≤ (t0.setitemNoResize k0 v0).mlf_num
          * (t0.setitemNoResize k0 v0).capacity := by
      show t0.mlf_den * ((t0.setitemNoResize k0 v0).num_elements + rest.length)
        ≤ t0.mlf_num * t0.capacity
      rw [hnum]
      calc t0.mlf_den * (t0.num_elements + 1 + rest.length)
          = t0.mlf_den * (t0.num_elements + (rest.length + 1)) := by ring_nf
        _ ≤ t0.mlf_num * t0.capacity := hbound
    have hrest : ChainingHashTable.insertListFuel g t0 ((k0, v0) :: rest)
        = ChainingHashTable.insertListFuel g
            (ChainingHashTable.setitemFuel g t0 k0 v0) rest := rfl
    rw [hrest, hstep]
    exact ih (t0.setitemNoResize k0 v0) S.inv habs1 hnd.2 hbound1

theorem ChainingHashTable.resizeFuel_capacity {t : ChainingHashTable V}
    (g : Nat) (ht : ChainInv t)
    (hb : t.mlf_den * t.num_elements
      ≤ t.mlf_num * (t.capacity * t.growth_factor)) :
    (ChainingHashTable.resizeFuel (g + 1) t).capacity
      = t.capacity * t.growth_factor := by
  have hgpos : 0 < t.growth_factor := by
    rw [ht.growth_eq]
    omega
  have hcap : 0 < t.capacity * t.growth_factor :=
    Nat.mul_pos ht.cap_pos hgpos
  have h0 : ChainInv (ChainingHashTable.init
      (t.capacity * t.growth_factor) t.mlf_num t.mlf_den : ChainingHashTable V) :=
    ChainingHashTable.chainInv_init hcap t.mlf_num t.mlf_den
  have habs : ∀ kv ∈ t.items,
      (ChainingHashTable.init (t.capacity * t.growth_factor) t.mlf_num
        t.mlf_den : ChainingHashTable V).getitem kv.1 = none :=
    fun kv _ => ChainingHashTable.getitem_init _ _ _ _
  have hbound : (ChainingHashTable.init (t.capacity * t.growth_factor)
        t.mlf_num t.mlf_den : ChainingHashTable V).mlf_den
        * ((ChainingHashTable.init (t.capacity * t.growth_factor) t.mlf_num
            t.mlf_den : ChainingHashTable V).num_elements + t.items.length)
      ≤ (ChainingHashTable.init (t.capacity * t.growth_factor) t.mlf_num
          t.mlf_den : ChainingHashTable V).mlf_num
        * (ChainingHashTable.init (t.capacity * t.growth_factor) t.mlf_num
            t.mlf_den : ChainingHashTable V).capacity := by
    show t.mlf_den * (0 + t.items.length)
      ≤ t.mlf_num * (t.capacity * t.growth_factor)
    rw [Nat.zero_add, ← ht.count_eq]
    exact hb
  exact ChainingHashTable.insertList_noTrigger g t.items _ h0 habs
    (ChainingHashTable.items_keys_nodup ht) hbound

theorem OpenHashTable.insertList_noTrigger_oa (pk : ProbeKind) (g : Nat) :
    ∀ (l : List (Nat × V)) (t0 : OpenHashTable V), OpenInv pk t0 →
      (∀ kv ∈ l, t0.getitem pk kv.1 = none) →
      (List.map Prod.fst l).Nodup →
      t0.num_tombstones = 0 →
      t0.mlf_den * (t0.num_elements + l.length) ≤ t0.mlf_num * t0.capacity →
      ∀ tr ∈ OpenHashTable.insertListFuel pk g (some t0) l,
        tr.capacity = t0.capacity ∧ tr.num_tombstones = 0 := by
  intro l
  induction l with
  | nil =>
    intro t0 _ _ _ htombs0 _ tr htr
    rw [Option.mem_def] at htr
    injection htr with htr
    subst htr
    exact ⟨rfl, htombs0⟩
  | cons kv rest ih =>
    obtain ⟨k0, v0⟩ := kv
    intro t0 ht habs hnd htombs0 hbound tr htr
    rw [Option.mem_def] at htr
    rw [List.length_cons] at hbound
    simp only [List.map_cons, List.nodup_cons] at hnd
    have habs0 : t0.getitem pk k0 = none := habs (k0, v0) (List.mem_cons_self _ _)
    have hfold : OpenHashTable.insertListFuel pk g (some t0) ((k0, v0) :: rest)
        = OpenHashTable.insertListFuel pk g
            (OpenHashTable.setitemFuel pk g t0 k0 v0) rest := rfl
    rw [hfold] at htr
    rcases hw : t0.setitemNoResize pk k0 v0 with _ | t1
    · rw [show OpenHashTable.setitemFuel pk g t0 k0 v0 = none by
        rw [OpenHashTable.setitemFuel_eq_oa, hw]; rfl,
        OpenHashTable.insertListFuel_none] at htr
      exact Option.noConfusion htr
    · obtain ⟨S, hcap1⟩ := OpenHashTable.setitemNoResize_spec_oa pk ht k0 v0 t1
        (by rw [hw]; rfl)
      have hnum1 : t1.num_elements = t0.num_elements + 1 := by
        rw [S.num, habs0]
        rfl
      have htombs1 : t1.num_tombstones = 0 :=
        Nat.le_zero.mp (htombs0 ▸ S.tombs_le)
      have htrig : t1.trigger = false := by
        rw [OpenHashTable.trigger, loadTrigger]
        apply decide_eq_false
        intro hlt
        rw [hnum1, htombs1, S.mnum, S.mden, hcap1] at hlt
        have hmono : t0.mlf_den * (t0.num_elements + 1 + 0)
            ≤ t0.mlf_den * (t0.num_elements + (rest.length + 1)) :=
          Nat.mul_le_mul_left _ (by omega)
        omega
      have hstep : OpenHashTable.setitemFuel pk g t0 k0 v0 = some t1 := by
        rw [OpenHashTable.setitemFuel_eq_oa, hw]
        show (if t1.trigger then _ else _) = _
        rw [htrig]
        simp only [Bool.false_eq_true, if_false]
      rw [hstep] at htr
      have habs1 : ∀ kv ∈ rest, t1.getitem pk kv.1 = none := by
        intro kv hkv
        have hne : kv.1 ≠ k0 := by
          intro he
          exact hnd.1 (he ▸ List.mem_map_of_mem Prod.fst hkv)
        rw [S.get_other kv.1 hne]
        exact habs kv (List.mem_cons_of_mem _ hkv)
      have hbound1 : t1.mlf_den * (t1.num_elements + rest.length)
          ≤ t1.mlf_num * t1.capacity := by
        rw [hnum1, S.mnum, S.mden, hcap1]
        calc t0.mlf_den * (t0.num_elements + 1 + rest.length)
            = t0.mlf_den * (t0.num_elements + (rest.length + 1)) := by ring_nf
          _ ≤ t0.mlf_num * t0.capacity := hbound
      obtain ⟨IH1, IH2⟩ := ih t1 S.inv habs1 hnd.2 htombs1 hbound1 tr htr
      exact ⟨IH1.trans hcap1, IH2⟩

theorem OpenHashTable.resizeFuel_capacity_oa (pk : ProbeKind)
    {t : OpenHashTable V} (g : Nat) (ht : OpenInv pk t)
    (hb : t.mlf_den * t.num_elements
      ≤ t.mlf_num * (t.capacity * t.growth_factor)) :
    ∀ tr ∈ OpenHashTable.resizeFuel pk (g + 1) t,
      tr.capacity = t.capacity * t.growth_factor ∧ tr.num_tombstones = 0 := by
  intro tr htr
  have hgpos : 0 < t.growth_factor := by
    rw [ht.growth_eq]
    omega
  have hcap : 0 < t.capacity * t.growth_factor :=
    Nat.mul_pos ht.cap_pos hgpos
  have h0 : OpenInv pk (OpenHashTable.init
      (t.capacity * t.growth_factor) t.mlf_num t.mlf_den : OpenHashTable V) :=
    OpenHashTable.openInv_init pk hcap t.mlf_num t.mlf_den
  have habs : ∀ kv ∈ t.items,
      (OpenHashTable.init (t.capacity * t.growth_factor) t.mlf_num
        t.mlf_den : OpenHashTable V).getitem pk kv.1 = none :=
    fun kv _ => OpenHashTable.getitem_init_oa pk _ _ _ _
  have hbound : (OpenHashTable.init (t.capacity * t.growth_factor)
        t.mlf_num t.mlf_den : OpenHashTable V).mlf_den
        * ((OpenHashTable.init (t.capacity * t.growth_factor) t.mlf_num
            t.mlf_den : OpenHashTable V).num_elements + t.items.length)
      ≤ (OpenHashTable.init (t.capacity * t.growth_factor) t.mlf_num
          t.mlf_den : OpenHashTable V).mlf_num
        * (OpenHashTable.init (t.capacity * t.growth_factor) t.mlf_num
            t.mlf_den : OpenHashTable V).capacity := by
    show t.mlf_den * (0 + t.items.length)
      ≤ t.mlf_num * (t.capacity * t.growth_factor)
    rw [Nat.zero_add, ← ht.n_eq]
    exact hb
  exact OpenHashTable.insertList_noTrigger_oa pk g t.items _ h0 habs
    (OpenHashTable.items_keys_nodup_oa ht) rfl hbound tr htr

theorem OpenHashTable.resizeFuel_tombs (pk : ProbeKind)
    {t : OpenHashTable V} (g : Nat) (ht : OpenInv pk t) :
    ∀ tr ∈ OpenHashTable.resizeFuel pk (g + 1) t, tr.num_tombstones = 0 := by
  intro tr htr
  have hgpos : 0 < t.growth_factor := by
    rw [ht.growth_eq]
    omega
  have hcap : 0 < t.capacity * t.growth_factor :=
    Nat.mul_pos ht.cap_pos hgpos
  have h0 : OpenInv pk (OpenHashTable.init
      (t.capacity * t.growth_factor) t.mlf_num t.mlf_den : OpenHashTable V) :=
    OpenHashTable.openInv_init pk hcap t.mlf_num t.mlf_den
  have habs : ∀ kv ∈ t.items,
      (OpenHashTable.init (t.capacity * t.growth_factor) t.mlf_num
        t.mlf_den : OpenHashTable V).getitem pk kv.1 = none :=
    fun kv _ => OpenHashTable.getitem_init_oa pk _ _ _ _
  have hspec := OpenHashTable.insertListFuel_spec_oa pk g
    (OpenHashTable.fuel_spec_oa pk g).1 t.items _ h0
    (OpenHashTable.items_keys_nodup_oa ht) habs tr htr
  exact Nat.le_zero.mp hspec.2.2.2.2.2.2

/-- Claim C4 counterexample: the claim says a resize always multiplies the
capacity by exactly `growth_factor`.  But `_resize` re-inserts through the
full `__setitem__`, whose trailing load-factor check can trigger a further,
nested resize.  Concretely, for a chaining table of capacity 1 holding one
entry with `maximum_load_factor = 1/4` and `growth_factor = 2` (a valid,
invariant-satisfying table), the resize ends with capacity `4`, not
`1 * 2 = 2`. -/
theorem claim_C4_counterexample :
    ChainInv (⟨1, [some [(0, 0)]], 1, 0, 1, 4, 2⟩ : ChainingHashTable Nat) ∧
    (ChainingHashTable.resizeFuel 5
        (⟨1, [some [(0, 0)]], 1, 0, 1, 4, 2⟩ : ChainingHashTable Nat)).capacity
      = 4 ∧
    ¬((ChainingHashTable.resizeFuel 5
        (⟨1, [some [(0, 0)]], 1, 0, 1, 4, 2⟩ : ChainingHashTable Nat)).capacity
      = (⟨1, [some [(0, 0)]], 1, 0, 1, 4, 2⟩ : ChainingHashTable Nat).capacity
        * (⟨1, [some [(0, 0)]], 1, 0, 1, 4, 2⟩
            : ChainingHashTable Nat).growth_factor) :=
  ⟨by decide, by decide, by decide⟩

/-- Claim C4 (amended): for every variant, a completed resize (with resize
fuel available, i.e. `1 ≤ fuel`) unconditionally preserves the
max-load-factor pair, keeps `get(k)` for every key and the element count (no
live entry lost or duplicated, by key uniqueness of the invariant), and
carries no tombstone over; and — provided the re-insertions cannot trigger a
nested resize, i.e.
`mlf_den * element_count ≤ mlf_num * (capacity * growth_factor)` — the new
capacity is moreover exactly the old capacity times `growth_factor`.
(Without that proviso the nested resize can grow the capacity further; see
the counterexample.) -/
theorem claim_C4_amended (fuel : Nat) (hfuel : 1 ≤ fuel) (s : TableState V)
    (h : InvT s) :
    ∀ s' ∈ s.resizeT fuel,
      s'.mlfT = s.mlfT ∧
      s'.tombsT = 0 ∧
      s'.lenT = s.lenT ∧
      (∀ k, s'.getT k = s.getT k) ∧
      InvT s' ∧
      (s.mlfT.2 * s.lenT ≤ s.mlfT.1 * (s.capT * s.growthT) →
        s'.capT = s.capT * s.growthT) := by
  obtain ⟨g, rfl⟩ : ∃ g, fuel = g + 1 := ⟨fuel - 1, by omega⟩
  intro s' hs'
  rw [Option.mem_def] at hs'
  cases s with
  | chain t =>
    injection hs' with hs'
    subst hs'
    have R := (ChainingHashTable.fuel_spec (g + 1)).2 t h
    exact ⟨by show (_, _) = (_, _); rw [R.mnum, R.mden], R.tombs,
      R.num, R.get_all, R.inv,
      fun hb => ChainingHashTable.resizeFuel_capacity g h hb⟩
  | oa pk t =>
    obtain ⟨t1, ht1, rfl⟩ := Option.map_eq_some'.mp hs'
    have R := (OpenHashTable.fuel_spec_oa pk (g + 1)).2 t h t1 (by rw [ht1]; rfl)
    have htombs := OpenHashTable.resizeFuel_tombs pk g h t1 (by rw [ht1]; rfl)
    exact ⟨by show (_, _) = (_, _); rw [R.mnum, R.mden], htombs,
      R.num, R.get_all, R.inv,
      fun hb => (OpenHashTable.resizeFuel_capacity_oa pk g h hb t1
        (by rw [ht1]; rfl)).1⟩

theorem claim_C4_amended_witness :
    (((TableState.oa ProbeKind.linear
        ⟨4, [Slot.occ 4 1, Slot.tomb, Slot.blank, Slot.blank], 1, 1, 1, 2, 2⟩
      : TableState Nat).resizeT 3).getD
        (TableState.mkT Variant.chaining 1 1 1)).capT = 8 ∧
    (((TableState.oa ProbeKind.linear
        ⟨4, [Slot.occ 4 1, Slot.tomb, Slot.blank, Slot.blank], 1, 1, 1, 2, 2⟩
      : TableState Nat).resizeT 3).getD
        (TableState.mkT Variant.chaining 1 1 1)).tombsT = 0 ∧
    (((TableState.oa ProbeKind.linear
        ⟨4, [Slot.occ 4 1, Slot.tomb, Slot.blank, Slot.blank], 1, 1, 1, 2, 2⟩
      : TableState Nat).resizeT 3).getD
        (TableState.mkT Variant.chaining 1 1 1)).lenT = 1 ∧
    (((TableState.oa ProbeKind.linear
        ⟨4, [Slot.occ 4 1, Slot.tomb, Slot.blank, Slot.blank], 1, 1, 1, 2, 2⟩
      : TableState Nat).resizeT 3).getD
        (TableState.mkT Variant.chaining 1 1 1)).getT 4 = some 1 := by
  have h := claim_C4_amended 3 (by decide)
    (TableState.oa ProbeKind.linear
        ⟨4, [Slot.occ 4 1, Slot.tomb, Slot.blank, Slot.blank], 1, 1, 1, 2, 2⟩
      : TableState Nat) (by decide)
  rcases hr : (TableState.oa ProbeKind.linear
      ⟨4, [Slot.occ 4 1, Slot.tomb, Slot.blank, Slot.blank], 1, 1, 1, 2, 2⟩
    : TableState Nat).resizeT 3 with _ | s'
  · exact absurd hr (by decide)
  · obtain ⟨hmlf, htombs, hlen, hget, hinv, hcap⟩ := h s' (by rw [hr]; rfl)
    refine ⟨hcap (by decide), htombs, hlen, ?_⟩
    show s'.getT 4 = some 1
    rw [hget 4]
    decide

end HashTables
